import Mathlib

/-! # BOA branch-coverage Pin tool: embedding and verified properties

Shallow embedding of
`src/boa/modules/dynamic_analysis/instrumentation/PIN/branch_coverage_numeric_hash.cpp`.

* The global variables of the tool become the fields of `State`.
* `ADDRINT`, `UINT64` and `size_t` are 64-bit unsigned integers (Intel64 Pin
  kit): they are natural numbers, and every operation that can wrap is
  written with an explicit `% 2 ^ 64`.  `uint32_t` arithmetic is `% 2 ^ 32`.
* `std::string` is `List Char`; a `std::vector` is a `List`.
* `unsigned char bitmap[MAP_SIZE]` is a function from indices to counters.
* The Pin host is represented by the data it hands to the callbacks: a
  section list for `entry_point`, decoded instructions for `Trace`, the
  instruction pointer for `TrackBranch`.
-/

namespace BOA

/-! ## Constants and machine arithmetic -/

/-- The macro `MAP_SIZE`, defined as `(1 << 16)`. -/
def MAP_SIZE : Nat := 1 <<< 16

/-- Number of values of an `ADDRINT` (64-bit unsigned). -/
def ADDR_RANGE : Nat := 2 ^ 64

/-- Number of values of a `uint32_t`. -/
def U32_RANGE : Nat := 2 ^ 32

/-- Unsigned 64-bit subtraction `a - b`, wrapping around. -/
def sub64 (a b : Nat) : Nat := (a % ADDR_RANGE + (ADDR_RANGE - b % ADDR_RANGE)) % ADDR_RANGE

/-- Unsigned 64-bit addition `a + b`, wrapping around. -/
def add64 (a b : Nat) : Nat := (a + b) % ADDR_RANGE

/-- Unsigned 32-bit multiplication `a * b`, wrapping around. -/
def mul32 (a b : Nat) : Nat := (a * b) % U32_RANGE

/-! ## Host data -/

/-- What `entry_point` reads of a Pin `SEC`: `SEC_Name`, `SEC_Address`,
`SEC_Size`, `SEC_IsExecutable`. -/
structure Section where
  name : String
  address : Nat
  size : Nat
  executable : Bool
  deriving DecidableEq, Repr

/-- What `Trace` reads of a Pin `INS`: `INS_Address`, `INS_IsBranch`,
`INS_HasFallThrough`, `INS_IsCall`, `INS_Disassemble`. -/
structure Ins where
  address : Nat
  isBranch : Bool
  hasFallThrough : Bool
  isCall : Bool
  disassemble : List Char
  deriving DecidableEq, Repr

/-! ## Global state -/

/-- The global variables of the tool (lines 34-46).  `bitmap_shm` is the
pointer to the shared map: `none` is the null pointer. -/
structure State where
  sec_addr : Nat
  sec_size : Nat
  min_addr : Nat
  max_addr : Nat
  branch_sources : List Nat
  branch_jumps : List Nat
  branch_jumps_instr : List (List Char)
  bitmap : Nat → Nat
  bitmap_shm : Option (Nat → Nat)
  last_id : Nat

/-- The state at program start: every global is zero-initialised, the
vectors are empty and no shared map is attached. -/
def State.init : State :=
  { sec_addr := 0, sec_size := 0, min_addr := 0, max_addr := 0,
    branch_sources := [], branch_jumps := [], branch_jumps_instr := [],
    bitmap := fun _ => 0, bitmap_shm := none, last_id := 0 }

/-! ## Address-space filter -/

/-- Function `valid_addr` (lines 50-56): `addr >= min_addr && addr <= max_addr`.
The C++ function returns `true`/`false` converted to `ADDRINT`; callers only
test the result, so it is a `Bool` here. -/
def valid_addr (st : State) (addr : Nat) : Bool :=
  if addr ≥ st.min_addr ∧ addr ≤ st.max_addr then true else false

/-- Body of the section loop of `entry_point` (lines 149-180) for one
section. -/
def entry_point_sec (st : State) (sec : Section) : State :=
  if sec.executable = true ∧ sec.name = ".text" then
    let st1 := { st with sec_addr := sec.address, sec_size := sec.size }
    if st1.sec_addr ≠ 0 then
      let high_addr := add64 st1.sec_addr st1.sec_size
      let st2 :=
        if st1.sec_addr > st1.min_addr ∨ st1.min_addr = 0 then
          { st1 with min_addr := st1.sec_addr }
        else st1
      let st3 :=
        if st2.sec_addr > st2.max_addr ∨ st2.max_addr = 0 then
          { st2 with max_addr := st2.sec_addr }
        else st2
      if high_addr > st3.max_addr then { st3 with max_addr := high_addr } else st3
    else st1
  else st

/-- Function `entry_point` (lines 138-187): the loop over the sections of the main
image, in order. -/
def entry_point (st : State) (secs : List Section) : State :=
  secs.foldl entry_point_sec st

/-- A section passes the test of line 154. -/
def Section.qualifies (sec : Section) : Bool :=
  sec.executable && (sec.name == ".text")

/-! ## Edge tracker -/

/-- Function `TrackBranch` (lines 62-80). -/
def TrackBranch (st : State) (cur_addr : Nat) : State :=
  let cur_id := sub64 cur_addr st.min_addr
  match st.bitmap_shm with
  | some shm =>
    let i := (cur_id ^^^ st.last_id) % MAP_SIZE
    { st with bitmap_shm := some (Function.update shm i ((shm i + 1) % 256)),
              last_id := cur_id }
  | none =>
    let i := (cur_id ^^^ st.last_id) % MAP_SIZE
    { st with bitmap := Function.update st.bitmap i ((st.bitmap i + 1) % 256),
              last_id := cur_id }

/-! ## Instrumentation callback -/

/-- Library call `std::string::find(" ", pos)` for a one-character needle: the first
position `>= pos` holding `c`, `none` for `npos`. -/
def str_find (s : List Char) (c : Char) (pos : Nat) : Option Nat :=
  let i := (s.drop pos).indexOf c
  if i < (s.drop pos).length then some (pos + i) else none

/-- Library call `std::string::substr(pos, n)` for `pos <= size()`. -/
def substr (s : List Char) (pos n : Nat) : List Char :=
  (s.drop pos).take n

/-- The `while (end != npos)` loop of `Trace` (lines 106-111) on the
disassembly `s`, from the loop state `(start, end, branch_jump_instr)`; it
returns the final `start` and `branch_jump_instr`.  Every iteration moves
`end` to a later position of `s`, so `s.length + 1` units of fuel suffice. -/
def token_loop (s : List Char) : Nat → Nat → Option Nat → List Char → Nat × List Char
  | 0, start, _, instr => (start, instr)
  | _ + 1, start, none, instr => (start, instr)
  | fuel + 1, start, some e, _ =>
    token_loop s fuel (e + 1) (str_find s ' ' (e + 1)) (substr s start (e - start))

/-- Lines 103-111 of `Trace`: `start = 0`, `end = find(" ")`, then the loop. -/
def split_tokens (s : List Char) : Nat × List Char :=
  token_loop s (s.length + 1) 0 (str_find s ' ' 0) []

/-- The characters `std::isspace` accepts in the "C" locale. -/
def is_space (c : Char) : Bool :=
  c = ' ' || c = '\t' || c = '\n' || c = '\r' || c.toNat = 11 || c.toNat = 12

/-- Value of a base-16 digit, `none` for any other character. -/
def hex_digit (c : Char) : Option Nat :=
  if '0' ≤ c ∧ c ≤ '9' then some (c.toNat - 48)
  else if 'a' ≤ c ∧ c ≤ 'f' then some (c.toNat - 87)
  else if 'A' ≤ c ∧ c ≤ 'F' then some (c.toNat - 55)
  else none

/-- The character is a base-16 digit. -/
def is_hex (c : Char) : Bool := (hex_digit c).isSome

/-- Exact value of a run of base-16 digits, most significant first. -/
def hex_value (ds : List Char) : Nat :=
  ds.foldl (fun acc c => 16 * acc + (hex_digit c).getD 0) 0

/-- What `ss << std::hex << field; ss >> branch_jump` (lines 113-114) stores
in the 64-bit unsigned `branch_jump` (standard-library behaviour, C++11
rules of `num_get`, base 16):
* leading white space is skipped; at end of stream nothing is extracted and
  the variable keeps its previous content: `none`;
* an optional sign, an optional `0x`/`0X`, then the longest run of hex digits
  is read and the scan stops at the first other character;
* no digit at all: the value `0` is stored;
* a run whose value does not fit: the largest value is stored;
* otherwise the value of the run, negated modulo `2 ^ 64` after a `-`. -/
def hex_extract (field : List Char) : Option Nat :=
  let s := field.dropWhile is_space
  if s = [] then none
  else
    let negative := s.head? = some '-'
    let s1 := if s.head? = some '-' ∨ s.head? = some '+' then s.tail else s
    let zx : Bool × List Char :=
      match s1 with
      | '0' :: 'x' :: r => (false, r)
      | '0' :: 'X' :: r => (false, r)
      | '0' :: r => (true, r)
      | _ => (false, s1)
    let ds := zx.2.takeWhile is_hex
    if ds = [] ∧ zx.1 = false then some 0
    else if hex_value ds ≥ ADDR_RANGE then some (ADDR_RANGE - 1)
    else if negative then some (sub64 0 (hex_value ds))
    else some (hex_value ds)

/-- Lines 101-114 of `Trace`: the value of the local `branch_jump` for the
disassembly `d`.  What is sent to the stream is `substr(start, npos - start)`,
the text after the last blank; `uninit` is the content of the storage of the
uninitialised local before the extraction, which survives when the
extraction reads nothing. -/
def branch_jump_of (uninit : Nat) (d : List Char) : Nat :=
  (hex_extract (d.drop (split_tokens d).1)).getD uninit

/-- Body of the instruction loop of `Trace` (lines 90-133) for one
instruction, on the globals; `uninit` is the content of the storage of
`branch_jump` before it.  The inserted analysis call is the host's business:
see `Event`. -/
def Trace_ins (uninit : Nat) (st : State) (ins : Ins) : State :=
  if valid_addr st ins.address = true then
    if ins.isBranch = true then
      if ins.hasFallThrough = true ∨ ins.isCall = true then
        let branch_source := ins.address
        let branch_ins_disassemble := ins.disassemble
        let branch_jump_instr := (split_tokens branch_ins_disassemble).2
        let branch_jump := branch_jump_of uninit branch_ins_disassemble
        { st with
          branch_sources := st.branch_sources ++ [sub64 st.sec_addr branch_source],
          branch_jumps_instr := st.branch_jumps_instr ++ [branch_jump_instr],
          branch_jumps := st.branch_jumps ++ [sub64 st.sec_addr branch_jump] }
      else st
    else st
  else st

/-- The instruction gets a `TrackBranch` call inserted (the three tests of
lines 91-95 pass). -/
def instrumented (st : State) (ins : Ins) : Bool :=
  valid_addr st ins.address && ins.isBranch && (ins.hasFallThrough || ins.isCall)

/-- The content of the storage of the local `branch_jump` (line 100) after
the loop body ran on one instruction: what line 114 left in it when the
instruction passes the three tests, the previous content otherwise.  The
local is never initialised, so an extraction that reads nothing leaves the
value of an earlier iteration in it. -/
def branch_jump_after (slot : Nat) (st : State) (ins : Ins) : Nat :=
  if valid_addr st ins.address = true then
    if ins.isBranch = true then
      if ins.hasFallThrough = true ∨ ins.isCall = true then
        branch_jump_of slot ins.disassemble
      else slot
    else slot
  else slot

/-- One iteration of the instruction loop of `Trace`, on the globals and the
content of the storage of `branch_jump`. -/
def Trace_iter (acc : State × Nat) (ins : Ins) : State × Nat :=
  (Trace_ins acc.2 acc.1 ins, branch_jump_after acc.2 acc.1 ins)

/-- The two nested loops of `Trace` (lines 86-135): a trace is a list of
basic blocks, each a list of instructions. -/
def Trace_loops (trace : List (List Ins)) (acc : State × Nat) : State × Nat :=
  trace.foldl (fun a bbl => bbl.foldl Trace_iter a) acc

/-- Function `Trace` (lines 84-136).  `uninit` is the indeterminate content
of the storage of `branch_jump` when `Trace` is entered. -/
def Trace (uninit : Nat) (st : State) (trace : List (List Ins)) : State :=
  (Trace_loops trace (st, uninit)).1

/-! ## Signature -/

/-- The `n` bytes of the object representation of the unsigned integer `v`,
least significant first (x86 is little-endian). -/
def le_bytes : Nat → Nat → List Nat
  | 0, _ => []
  | n + 1, v => v % 256 :: le_bytes n (v / 256)

/-- The bytes of the storage of a `std::vector` whose elements are `w` bytes
wide: what `&v[0]` points to. -/
def vector_bytes (w : Nat) (v : List Nat) : List Nat :=
  v.flatMap (le_bytes w)

/-- The bytes of a `std::string` (one `char` each): what `&s[0]` points to. -/
def string_bytes (s : List Char) : List Nat :=
  s.map (fun c => c.toNat % 256)

/-- Conversion of a `size_t` value to `int` at a call of `MurmurHash2`:
reduction modulo `2 ^ 32` read as two's complement. -/
def to_int (n : Nat) : Int :=
  if n % U32_RANGE < 2 ^ 31 then ((n % U32_RANGE : Nat) : Int)
  else ((n % U32_RANGE : Nat) : Int) - (U32_RANGE : Int)

/-- The `while (len >= 4)` loop of `MurmurHash2` (lines 262-275): `data` is
what the pointer `data` points to.  It returns the remaining data, `len` and
`h`, or `none` when a word is read past the end of the buffer. -/
def MurmurHash2_mix (m r : Nat) : List Nat → Int → Nat → Option (List Nat × Int × Nat)
  | data, len, h =>
    if len ≥ 4 then
      match data with
      | b0 :: b1 :: b2 :: b3 :: rest =>
        let k := b0 + b1 * 2 ^ 8 + b2 * 2 ^ 16 + b3 * 2 ^ 24
        let k := mul32 k m
        let k := k ^^^ (k >>> r)
        let k := mul32 k m
        let h := mul32 h m
        let h := h ^^^ k
        MurmurHash2_mix m r rest (len - 4) h
      | _ => none
    else some (data, len, h)

/-- The `switch (len)` of `MurmurHash2` (lines 279-285), with its
fall-through from case 3 to case 1; `none` when a byte is read past the end
of the buffer. -/
def MurmurHash2_tail (m : Nat) (data : List Nat) (len : Int) (h : Nat) : Option Nat :=
  if len = 3 then
    match data[2]?, data[1]?, data[0]? with
    | some d2, some d1, some d0 =>
      some (mul32 (((h ^^^ (d2 <<< 16)) ^^^ (d1 <<< 8)) ^^^ d0) m)
    | _, _, _ => none
  else if len = 2 then
    match data[1]?, data[0]? with
    | some d1, some d0 => some (mul32 ((h ^^^ (d1 <<< 8)) ^^^ d0) m)
    | _, _ => none
  else if len = 1 then
    match data[0]? with
    | some d0 => some (mul32 (h ^^^ d0) m)
    | none => none
  else some h

/-- Function `MurmurHash2` (lines 246-295).  `key` is the buffer the pointer refers
to, `len` the `int` argument, `seed` a `uint32_t`. -/
def MurmurHash2 (key : List Nat) (len : Int) (seed : Nat) : Option Nat :=
  let m := 0x5bd1e995
  let r := 24
  let h := seed ^^^ (len % (U32_RANGE : Int)).toNat
  match MurmurHash2_mix m r key len h with
  | none => none
  | some (data, len, h) =>
    match MurmurHash2_tail m data len h with
    | none => none
    | some h =>
      let h := h ^^^ (h >>> 13)
      let h := mul32 h m
      let h := h ^^^ (h >>> 15)
      some h

/-- The seed of `Fini` (line 195). -/
def SEED : Nat := 0x726f7373

/-- Library call `std::accumulate(begin, end, std::string(""))` of line 197. -/
def accumulate (v : List (List Char)) : List Char :=
  v.foldl (fun acc s => acc ++ s) []

/-- The first sub-hash of `Fini` (line 196). -/
def branch_sources_hash (st : State) : Option Nat :=
  MurmurHash2 (vector_bytes 8 st.branch_sources)
    (to_int (st.branch_sources.length * 8 % ADDR_RANGE)) SEED

/-- The second sub-hash of `Fini` (lines 197-198). -/
def branch_jumps_instr_hash (st : State) : Option Nat :=
  MurmurHash2 (string_bytes (accumulate st.branch_jumps_instr))
    (to_int (accumulate st.branch_jumps_instr).length) SEED

/-- The third sub-hash of `Fini` (line 199). -/
def branch_jumps_hash (st : State) : Option Nat :=
  MurmurHash2 (vector_bytes 8 st.branch_jumps)
    (to_int (st.branch_jumps.length * 8 % ADDR_RANGE)) SEED

/-- Function `Fini` (lines 190-213): the two fields of the report line,
`branch_sources.size()` and `final_hash`; `none` when a hash reads outside
its buffer. -/
def Fini (st : State) : Option (Nat × Nat) :=
  match branch_sources_hash st, branch_jumps_instr_hash st, branch_jumps_hash st with
  | some h1, some h2, some h3 =>
    let final_hash_aux := [h1, h2, h3]
    match MurmurHash2 (vector_bytes 4 final_hash_aux)
        (to_int (final_hash_aux.length * 4 % ADDR_RANGE)) SEED with
    | some final_hash => some (st.branch_sources.length, final_hash)
    | none => none
  | _, _, _ => none

/-! ## Runs -/

/-- What the host does during a run, after `entry_point`: it hands a fresh
trace to `Trace` (with the indeterminate stack content `uninit`), or it
executes an instrumented branch at `addr`, which calls `TrackBranch`. -/
inductive Event where
  | trace (uninit : Nat) (t : List (List Ins))
  | exec (addr : Nat)

/-- One event of a run. -/
def step (st : State) : Event → State
  | .trace uninit t => Trace uninit st t
  | .exec addr => TrackBranch st addr

/-- A run: the events in order. -/
def run (st : State) (evs : List Event) : State :=
  evs.foldl step st

/-- Number of `TrackBranch` calls of a run: the branch executions. -/
def executions : List Event → Nat
  | [] => 0
  | .trace _ _ :: evs => executions evs
  | .exec _ :: evs => executions evs + 1

/-- Number of record entries the `Trace` calls of a run append: the
instructions that pass the tests of lines 91-95, counted once per
instrumentation. -/
def instrumentations (st : State) : List Event → Nat
  | [] => 0
  | .trace _ t :: evs =>
    (t.map (fun bbl => bbl.countP (instrumented st))).sum + instrumentations st evs
  | .exec _ :: evs => instrumentations st evs

/-- The coverage map `TrackBranch` writes to: the shared buffer when the
pointer `bitmap_shm` is not null, the local one otherwise (line 73). -/
def active_map (st : State) : Nat → Nat :=
  match st.bitmap_shm with
  | some shm => shm
  | none => st.bitmap

/-! ## Described behaviour, for comparison with the code -/

/-- The sections `discover` is described to union: executable, named
`.text`, with a non-zero address. -/
def matching_sections (secs : List Section) : List Section :=
  secs.filter (fun sec => sec.qualifies && decide (sec.address ≠ 0))

/-- Described `CodeRegion.base`: the minimum start address over the matching
sections (`0` when there is none). -/
def described_base (secs : List Section) : Nat :=
  match (matching_sections secs).map (fun sec => sec.address) with
  | [] => 0
  | a :: as => as.foldl min a

/-- Described `CodeRegion.limit`: the maximum of start + size over the
matching sections (`0` when there is none). -/
def described_limit (secs : List Section) : Nat :=
  ((matching_sections secs).map (fun sec => sec.address + sec.size)).foldl max 0

/-- Reference definition of the hash, mixing constant `m`. -/
def REF_M : Nat := 0x5bd1e995

/-- Reference definition, one complete word `k`: `k := k*m`,
`k := k XOR (k >> 24)`, `k := k*m`, `h := (h*m) XOR k`, in 32-bit wrapping
arithmetic. -/
def ref_word_step (h k : Nat) : Nat :=
  let k1 := (k * REF_M) % 2 ^ 32
  let k2 := k1 ^^^ (k1 >>> 24)
  let k3 := (k2 * REF_M) % 2 ^ 32
  ((h * REF_M) % 2 ^ 32) ^^^ k3

/-- Reference definition: the complete little-endian 4-byte words of the
data, in order. -/
def complete_words : List Nat → List Nat
  | b0 :: b1 :: b2 :: b3 :: rest =>
    (b0 + 2 ^ 8 * b1 + 2 ^ 16 * b2 + 2 ^ 24 * b3) :: complete_words rest
  | _ => []

/-- Reference definition: the `len mod 4` bytes that remain after the
complete words. -/
def remaining_bytes : List Nat → List Nat
  | _ :: _ :: _ :: _ :: rest => remaining_bytes rest
  | tail => tail

/-- Reference definition, the remaining bytes `b0, b1, b2`: with at least one
byte `h := (h XOR (b0 | b1<<8 | b2<<16)) * m`, using only the bytes present;
with none `h` is unchanged. -/
def ref_tail (tail : List Nat) (h : Nat) : Nat :=
  match tail with
  | [] => h
  | [b0] => ((h ^^^ b0) * REF_M) % 2 ^ 32
  | [b0, b1] => ((h ^^^ (b0 ||| b1 <<< 8)) * REF_M) % 2 ^ 32
  | b0 :: b1 :: b2 :: _ => ((h ^^^ (b0 ||| b1 <<< 8 ||| b2 <<< 16)) * REF_M) % 2 ^ 32

/-- Reference definition, the end: `h := h XOR (h >> 13)`, `h := h*m`,
`h := h XOR (h >> 15)`. -/
def ref_final (h : Nat) : Nat :=
  let h1 := h ^^^ (h >>> 13)
  let h2 := (h1 * REF_M) % 2 ^ 32
  h2 ^^^ (h2 >>> 15)

/-- Reference definition of `MurmurHash2(data, len, seed)` for a buffer
`data` of `len` bytes: start with `h = seed XOR len`, mix the complete words
in order, then the remaining bytes, then the end. -/
def MurmurHash2_ref (data : List Nat) (seed : Nat) : Nat :=
  ref_final (ref_tail (remaining_bytes data)
    ((complete_words data).foldl ref_word_step (seed ^^^ data.length)))

/-! ## Concrete inputs -/

/-- Two executable `.text` sections, the lower one first. -/
def two_text_sections : List Section :=
  [ { name := ".text", address := 0x1000, size := 0x100, executable := true },
    { name := ".text", address := 0x2000, size := 0x100, executable := true } ]

/-- An image without any executable `.text` section. -/
def no_text_sections : List Section :=
  [ { name := ".data", address := 0x3000, size := 0x80, executable := false },
    { name := ".plt", address := 0x400, size := 0x40, executable := true },
    { name := ".text", address := 0x1000, size := 0x100, executable := false } ]

/-- A state whose region is `[0x1000, 0x1100]` and whose counter at edge
`0x10` holds 255. -/
def sample_state : State :=
  { State.init with
    sec_addr := 0x1000, sec_size := 0x100, min_addr := 0x1000, max_addr := 0x1100,
    bitmap := fun i => if i = 0x10 then 255 else 0 }

/-- The state after `entry_point` on an image whose only executable
`.text` section is at 0x1000 with size 0x100. -/
def region_state : State :=
  entry_point State.init [{ name := ".text", address := 0x1000, size := 0x100, executable := true }]

/-- A conditional branch at 0x1010, decoded as `jz 0x1040`. -/
def jz_ins : Ins :=
  { address := 0x1010, isBranch := true, hasFallThrough := true, isCall := false,
    disassemble := "jz 0x1040".toList }

/-- A run in which the branch at 0x1010 is instrumented once and then
executed three times (a loop). -/
def loop_run : List Event :=
  [.trace 0 [[jz_ins]], .exec 0x1010, .exec 0x1010, .exec 0x1010]

/-- The state `region_state` with another coverage map and another
`last_id`: same (empty) record. -/
def region_state_touched : State :=
  { region_state with bitmap := fun _ => 7, bitmap_shm := some (fun i => i % 256),
                      last_id := 0x55 }

/-- A second conditional branch, at 0x1020, decoded as `jz 0x1080`. -/
def jz_ins_b : Ins :=
  { address := 0x1020, isBranch := true, hasFallThrough := true, isCall := false,
    disassemble := "jz 0x1080".toList }

/-- The record after the two branches were instrumented in the order
0x1010, 0x1020. -/
def record_ab : State := Trace 0 region_state [[jz_ins, jz_ins_b]]

/-- The run record as a sequence of events `(source, mnemonic, target)`. -/
def events (st : State) : List (Nat × List Char × Nat) :=
  List.zip st.branch_sources (List.zip st.branch_jumps_instr st.branch_jumps)

/-- The token is a base-16 integer: hex digits only, at least one, after an
optional `0x`. -/
def is_hex_integer (tok : List Char) : Bool :=
  match tok with
  | '0' :: 'x' :: ds => !ds.isEmpty && ds.all is_hex
  | ds => !ds.isEmpty && ds.all is_hex

/-- An indirect call through memory addressed with a segment override,
in the region. -/
def call_indirect : Ins :=
  { address := 0x1030, isBranch := true, hasFallThrough := true, isCall := true,
    disassemble := "call qword ptr fs:[rax]".toList }

/-- A direct call to the address 0xf, at the same place. -/
def call_direct : Ins :=
  { address := 0x1030, isBranch := true, hasFallThrough := true, isCall := true,
    disassemble := "call 0xf".toList }

/-- The index expression of lines 74 and 77 of `TrackBranch`,
`(cur_id ^ last_id) % MAP_SIZE` with `cur_id = cur_addr - min_addr`. -/
def edge_index (st : State) (cur_addr : Nat) : Nat :=
  (sub64 cur_addr st.min_addr ^^^ st.last_id) % MAP_SIZE

/-- The lower of the two sections of `two_text_sections`. -/
def low_text_section : Section :=
  { name := ".text", address := 0x1000, size := 0x100, executable := true }

/-- The higher of the two sections of `two_text_sections`. -/
def high_text_section : Section :=
  { name := ".text", address := 0x2000, size := 0x100, executable := true }

/-- An executable `.text` section whose address + size wraps around the
64-bit address width: the sum is 0x10. -/
def wrapping_text_section : Section :=
  { name := ".text", address := 0xfffffffffffff000, size := 0x1010, executable := true }

/-- The conditional branch `A` of the end-to-end scenario, at 0x1000. -/
def branch_A : Ins :=
  { address := 0x1000, isBranch := true, hasFallThrough := true, isCall := false,
    disassemble := "jnz 0x1010".toList }

/-- The conditional branch `B` of the end-to-end scenario, at 0x1010. -/
def branch_B : Ins :=
  { address := 0x1010, isBranch := true, hasFallThrough := true, isCall := false,
    disassemble := "jnz 0x1020".toList }

/-- The conditional branch `C` of the end-to-end scenario, at 0x1020. -/
def branch_C : Ins :=
  { address := 0x1020, isBranch := true, hasFallThrough := true, isCall := false,
    disassemble := "jnz 0x1030".toList }

/-- The end-to-end scenario: the host instruments the three branches (one
trace of three basic blocks) and executes them once each in the order
`A`, `B`, `C`. -/
def abc_run : List Event :=
  [.trace 0 [[branch_A], [branch_B], [branch_C]], .exec 0x1000, .exec 0x1010, .exec 0x1020]

/-- The state after `entry_point` on an image whose only executable
`.text` section is at 0x400000 with size 0x200000. -/
def wide_region_state : State :=
  entry_point State.init
    [{ name := ".text", address := 0x400000, size := 0x200000, executable := true }]

/-- A conditional branch at 0x415cb5, decoded as `jz 0x415cd5`. -/
def jz_first : Ins :=
  { address := 0x415cb5, isBranch := true, hasFallThrough := true, isCall := false,
    disassemble := "jz 0x415cd5".toList }

/-- A conditional branch at 0x41e3c6, decoded as `jz 0x41e3e6`. -/
def jz_second : Ins :=
  { address := 0x41e3c6, isBranch := true, hasFallThrough := true, isCall := false,
    disassemble := "jz 0x41e3e6".toList }

/-- The record of a run that reaches the branch at 0x415cb5 only. -/
def record_first : State := Trace 0 wide_region_state [[jz_first]]

/-- The record of a run that reaches the branch at 0x41e3c6 only. -/
def record_second : State := Trace 0 wide_region_state [[jz_second]]

/-- A call whose decoded text ends in a blank: nothing follows the last
blank, so the extraction reads nothing. -/
def call_blank : Ins :=
  { address := 0x1040, isBranch := true, hasFallThrough := true, isCall := true,
    disassemble := "call ".toList }

end BOA

/-! # Theorems -/

namespace BOA

/-! ## Address-space filter -/

/-- C1 (code defect): on two qualifying sections at 0x1000 and 0x2000 the
section loop of `entry_point` ends with `min_addr = 0x2000`, the larger start
address, while the minimum start address is 0x1000 (the limit, 0x2100, is the
maximum of start + size).  The second section overwrote the base set by the
first: the address 0x1000 was within the region before it was processed and
is outside afterwards. -/
theorem entry_point_base_is_largest_start :
    (entry_point State.init two_text_sections).min_addr = 0x2000 ∧
    described_base two_text_sections = 0x1000 ∧
    (entry_point State.init two_text_sections).max_addr = 0x2100 ∧
    described_limit two_text_sections = 0x2100 ∧
    (entry_point State.init (two_text_sections.take 1)).min_addr = 0x1000 ∧
    valid_addr (entry_point State.init (two_text_sections.take 1)) 0x1000 = true ∧
    valid_addr (entry_point State.init two_text_sections) 0x1000 = false := by
  decide

/-- C2: `valid_addr` is true exactly when `min_addr <= addr <= max_addr`; it
is false just below the base (when the base is not 0) and just above the
limit (when the limit is not the largest address). -/
theorem valid_addr_iff (st : State) (addr : Nat) :
    (valid_addr st addr = true ↔ st.min_addr ≤ addr ∧ addr ≤ st.max_addr) ∧
    (0 < st.min_addr → valid_addr st (st.min_addr - 1) = false) ∧
    (st.max_addr < ADDR_RANGE - 1 → valid_addr st (st.max_addr + 1) = false) := by
  refine ⟨?_, ?_, ?_⟩
  · simp [valid_addr]
  · intro h
    simp [valid_addr]
    omega
  · intro _
    simp [valid_addr]

/-- C2 at the region `[0x1000, 0x1100]` and the address 0x1080. -/
theorem valid_addr_iff_witness :
    (valid_addr sample_state 0x1080 = true ↔
      sample_state.min_addr ≤ 0x1080 ∧ 0x1080 ≤ sample_state.max_addr) ∧
    (0 < sample_state.min_addr → valid_addr sample_state (sample_state.min_addr - 1) = false) ∧
    (sample_state.max_addr < ADDR_RANGE - 1 →
      valid_addr sample_state (sample_state.max_addr + 1) = false) :=
  valid_addr_iff sample_state 0x1080

/-- A section that fails the test of line 154 leaves the state as it is. -/
theorem entry_point_sec_skip (st : State) (sec : Section)
    (h : ¬ (sec.executable = true ∧ sec.name = ".text")) :
    entry_point_sec st sec = st := by
  simp only [entry_point_sec, if_neg h]

/-- When no section passes the test of line 154, `entry_point` leaves the
state as it is. -/
theorem entry_point_no_match (st : State) (secs : List Section)
    (h : ∀ sec ∈ secs, ¬ (sec.executable = true ∧ sec.name = ".text")) :
    entry_point st secs = st := by
  induction secs generalizing st with
  | nil => rfl
  | cons sec rest ih =>
    have h1 : entry_point_sec st sec = st :=
      entry_point_sec_skip st sec (h sec (List.mem_cons_self _ _))
    have h2 : entry_point st (sec :: rest) = entry_point (entry_point_sec st sec) rest := rfl
    rw [h2, h1]
    exact ih st (fun s hs => h s (List.mem_cons_of_mem _ hs))

/-- C3 as stated fails: on an image without an executable `.text` section
the region stays `(0, 0)`, and `valid_addr` accepts the address 0. -/
theorem valid_addr_empty_region_accepts_zero :
    (∀ sec ∈ no_text_sections, ¬ (sec.executable = true ∧ sec.name = ".text")) ∧
    (entry_point State.init no_text_sections).min_addr = 0 ∧
    (entry_point State.init no_text_sections).max_addr = 0 ∧
    ¬ (∀ addr, valid_addr (entry_point State.init no_text_sections) addr = false) := by
  refine ⟨by decide, by decide, by decide, ?_⟩
  intro h
  exact absurd (h 0) (by decide)

/-- C3 amended: when no section is both executable and named `.text`, the
region stays `min_addr = max_addr = 0`, and `valid_addr` is false for every
address except 0. -/
theorem valid_addr_empty_region (secs : List Section)
    (h : ∀ sec ∈ secs, ¬ (sec.executable = true ∧ sec.name = ".text")) :
    (entry_point State.init secs).min_addr = 0 ∧
    (entry_point State.init secs).max_addr = 0 ∧
    ∀ addr, valid_addr (entry_point State.init secs) addr = true ↔ addr = 0 := by
  rw [entry_point_no_match State.init secs h]
  refine ⟨rfl, rfl, ?_⟩
  intro addr
  simp [valid_addr, State.init]

/-- C3 amended, on an image without an executable `.text` section. -/
theorem valid_addr_empty_region_witness :
    (entry_point State.init no_text_sections).min_addr = 0 ∧
    (entry_point State.init no_text_sections).max_addr = 0 ∧
    ∀ addr, valid_addr (entry_point State.init no_text_sections) addr = true ↔ addr = 0 :=
  valid_addr_empty_region no_text_sections (by decide)

/-! ## Edge tracker -/

/-- The 64-bit subtraction does not wrap when the subtrahend is the smaller
operand. -/
theorem sub64_of_le (a b : Nat) (hba : b ≤ a) (ha : a < ADDR_RANGE) :
    sub64 a b = a - b := by
  have hb : b < ADDR_RANGE := Nat.lt_of_le_of_lt hba ha
  unfold sub64
  rw [Nat.mod_eq_of_lt ha, Nat.mod_eq_of_lt hb]
  have h1 : a + (ADDR_RANGE - b) = (a - b) + ADDR_RANGE := by omega
  rw [h1, Nat.add_mod_right]
  exact Nat.mod_eq_of_lt (by omega)

/-- An admitted address is at or above the base and at or below the limit. -/
theorem valid_addr_bounds (st : State) (addr : Nat) (h : valid_addr st addr = true) :
    st.min_addr ≤ addr ∧ addr ≤ st.max_addr := by
  simpa [valid_addr] using h

/-- C5: for an admitted source address, `TrackBranch` adds one modulo 256 to
the counter of the active map at index
`((source - base) XOR last_id) mod 65536` (a counter holding 255 becomes 0)
and leaves `last_id = source - base`. -/
theorem TrackBranch_increment (st : State) (cur_addr : Nat)
    (hv : valid_addr st cur_addr = true) (hr : cur_addr < ADDR_RANGE) :
    active_map (TrackBranch st cur_addr)
        (((cur_addr - st.min_addr) ^^^ st.last_id) % 65536) =
      (active_map st (((cur_addr - st.min_addr) ^^^ st.last_id) % 65536) + 1) % 256 ∧
    (TrackBranch st cur_addr).last_id = cur_addr - st.min_addr := by
  have hsub : sub64 cur_addr st.min_addr = cur_addr - st.min_addr :=
    sub64_of_le cur_addr st.min_addr (valid_addr_bounds st cur_addr hv).1 hr
  have hsize : MAP_SIZE = 65536 := by decide
  unfold TrackBranch active_map
  rw [hsub, hsize]
  cases hshm : st.bitmap_shm with
  | none => simp
  | some shm => simp

/-- C5 on a counter holding 255: the branch at 0x1010 of the region based at
0x1000, with `last_id = 0`, wraps the counter at edge 0x10 to 0. -/
theorem TrackBranch_increment_witness :
    active_map sample_state (((0x1010 - sample_state.min_addr) ^^^ sample_state.last_id) % 65536)
      = 255 ∧
    active_map (TrackBranch sample_state 0x1010)
        (((0x1010 - sample_state.min_addr) ^^^ sample_state.last_id) % 65536) = 0 ∧
    (TrackBranch sample_state 0x1010).last_id = 0x10 := by
  have h := TrackBranch_increment sample_state 0x1010 (by decide) (by decide)
  have h255 : active_map sample_state
      (((0x1010 - sample_state.min_addr) ^^^ sample_state.last_id) % 65536) = 255 := by decide
  refine ⟨h255, ?_, ?_⟩
  · rw [h.1, h255]
  · rw [h.2]
    decide

/-! ## The hash never reads past its buffer -/

/-- The list `le_bytes n v` has `n` bytes. -/
theorem length_le_bytes (n v : Nat) : (le_bytes n v).length = n := by
  induction n generalizing v with
  | zero => rfl
  | succ k ih => simp [le_bytes, ih]

/-- The storage of a vector of `w`-byte elements has `w` bytes per element. -/
theorem length_vector_bytes (w : Nat) (v : List Nat) :
    (vector_bytes w v).length = w * v.length := by
  induction v with
  | nil => rfl
  | cons a rest ih =>
    have h : vector_bytes w (a :: rest) = le_bytes w a ++ vector_bytes w rest := rfl
    rw [h, List.length_append, ih, length_le_bytes, List.length_cons]
    ring

/-- A string has one byte per character. -/
theorem length_string_bytes (s : List Char) : (string_bytes s).length = s.length := by
  simp [string_bytes]

/-- The `int` a `size_t` converts to is never larger than the `size_t`. -/
theorem to_int_le (n : Nat) : to_int n ≤ (n : Int) := by
  unfold to_int
  have h : n % U32_RANGE ≤ n := Nat.mod_le _ _
  split <;> omega

/-- A `size_t` below `2 ^ 31` converts to the same `int`. -/
theorem to_int_of_lt (n : Nat) (h : n < 2 ^ 31) : to_int (n % ADDR_RANGE) = (n : Int) := by
  have h1 : n % ADDR_RANGE = n := Nat.mod_eq_of_lt (by unfold ADDR_RANGE; omega)
  have h2 : n % U32_RANGE = n := Nat.mod_eq_of_lt (by unfold U32_RANGE; omega)
  unfold to_int
  rw [h1, h2, if_pos h]

/-- The word loop ends with fewer than four bytes to go, all inside the
buffer, whenever `len` does not exceed the size of the buffer. -/
theorem MurmurHash2_mix_some (m r : Nat) (n : Nat) :
    ∀ (data : List Nat) (len : Int) (h : Nat), data.length ≤ n → len ≤ (data.length : Int) →
      ∃ d l h1, MurmurHash2_mix m r data len h = some (d, l, h1) ∧ l < 4 ∧
        l ≤ (d.length : Int) := by
  induction n with
  | zero =>
    intro data len h hn hlen
    have hd : data = [] := List.length_eq_zero.mp (Nat.le_zero.mp hn)
    subst hd
    have hlt : ¬ len ≥ 4 := by simp at hlen; omega
    refine ⟨[], len, h, ?_, by omega, hlen⟩
    unfold MurmurHash2_mix
    rw [if_neg hlt]
  | succ k ih =>
    intro data len h hn hlen
    by_cases h4 : len ≥ 4
    · match data, hn, hlen with
      | b0 :: b1 :: b2 :: b3 :: rest, hn, hlen =>
        unfold MurmurHash2_mix
        rw [if_pos h4]
        apply ih
        · simp at hn; omega
        · simp at hlen; omega
      | [], _, hlen => simp at hlen; omega
      | [_], _, hlen => simp at hlen; omega
      | [_, _], _, hlen => simp at hlen; omega
      | [_, _, _], _, hlen => simp at hlen; omega
    · refine ⟨data, len, h, ?_, by omega, hlen⟩
      unfold MurmurHash2_mix
      rw [if_neg h4]

/-- The tail switch reads inside the buffer when `len` does not exceed its
size. -/
theorem MurmurHash2_tail_some (m : Nat) (data : List Nat) (len : Int) (h : Nat)
    (hlen : len ≤ (data.length : Int)) : ∃ h1, MurmurHash2_tail m data len h = some h1 := by
  unfold MurmurHash2_tail
  by_cases h3 : len = 3
  · rw [if_pos h3]
    match data, hlen with
    | d0 :: d1 :: d2 :: rest, _ =>
      exact ⟨mul32 (((h ^^^ (d2 <<< 16)) ^^^ (d1 <<< 8)) ^^^ d0) m, by simp⟩
    | [], hlen => simp at hlen; omega
    | [_], hlen => simp at hlen; omega
    | [_, _], hlen => simp at hlen; omega
  · rw [if_neg h3]
    by_cases h2 : len = 2
    · rw [if_pos h2]
      match data, hlen with
      | d0 :: d1 :: rest, _ => exact ⟨mul32 ((h ^^^ (d1 <<< 8)) ^^^ d0) m, by simp⟩
      | [], hlen => simp at hlen; omega
      | [_], hlen => simp at hlen; omega
    · rw [if_neg h2]
      by_cases h1 : len = 1
      · rw [if_pos h1]
        match data, hlen with
        | d0 :: rest, _ => exact ⟨mul32 (h ^^^ d0) m, by simp⟩
        | [], hlen => simp at hlen; omega
      · rw [if_neg h1]
        exact ⟨_, rfl⟩

/-- Totality: `MurmurHash2` returns a hash whenever `len` does not exceed the size of
the buffer. -/
theorem MurmurHash2_some (key : List Nat) (len : Int) (seed : Nat)
    (hlen : len ≤ (key.length : Int)) : ∃ h, MurmurHash2 key len seed = some h := by
  unfold MurmurHash2
  obtain ⟨d, l, h1, hmix, _, hl⟩ :=
    MurmurHash2_mix_some 0x5bd1e995 24 key.length key len
      (seed ^^^ (len % (U32_RANGE : Int)).toNat) (Nat.le_refl _) hlen
  obtain ⟨h2, htail⟩ := MurmurHash2_tail_some 0x5bd1e995 d l h1 hl
  simp only [hmix, htail]
  exact ⟨_, rfl⟩

/-- The three sub-hashes of `Fini` are always computed. -/
theorem sub_hashes_some (st : State) :
    (∃ h1, branch_sources_hash st = some h1) ∧
    (∃ h2, branch_jumps_instr_hash st = some h2) ∧
    (∃ h3, branch_jumps_hash st = some h3) := by
  refine ⟨?_, ?_, ?_⟩
  · apply MurmurHash2_some
    rw [length_vector_bytes]
    have h1 := to_int_le (st.branch_sources.length * 8 % ADDR_RANGE)
    have h2 : st.branch_sources.length * 8 % ADDR_RANGE ≤ st.branch_sources.length * 8 :=
      Nat.mod_le _ _
    omega
  · apply MurmurHash2_some
    rw [length_string_bytes]
    exact to_int_le _
  · apply MurmurHash2_some
    rw [length_vector_bytes]
    have h1 := to_int_le (st.branch_jumps.length * 8 % ADDR_RANGE)
    have h2 : st.branch_jumps.length * 8 % ADDR_RANGE ≤ st.branch_jumps.length * 8 :=
      Nat.mod_le _ _
    omega

/-- Totality: `Fini` always produces a report, whose first field is the size of
`branch_sources`. -/
theorem Fini_some (st : State) : ∃ sig, Fini st = some (st.branch_sources.length, sig) := by
  obtain ⟨⟨h1, e1⟩, ⟨h2, e2⟩, ⟨h3, e3⟩⟩ := sub_hashes_some st
  have hfin : ∃ f, MurmurHash2 (vector_bytes 4 [h1, h2, h3])
      (to_int ([h1, h2, h3].length * 4 % ADDR_RANGE)) SEED = some f := by
    apply MurmurHash2_some
    rw [length_vector_bytes]
    show to_int (3 * 4 % ADDR_RANGE) ≤ ((4 * 3 : Nat) : Int)
    decide
  obtain ⟨f, ef⟩ := hfin
  refine ⟨f, ?_⟩
  unfold Fini
  simp only [e1, e2, e3, ef]

/-! ## The run record and the report -/

/-- Frame of `TrackBranch`: it writes a coverage map and `last_id` only. -/
theorem TrackBranch_frame (st : State) (a : Nat) :
    (TrackBranch st a).branch_sources = st.branch_sources ∧
    (TrackBranch st a).branch_jumps_instr = st.branch_jumps_instr ∧
    (TrackBranch st a).branch_jumps = st.branch_jumps ∧
    (TrackBranch st a).min_addr = st.min_addr ∧
    (TrackBranch st a).max_addr = st.max_addr ∧
    (TrackBranch st a).sec_addr = st.sec_addr := by
  unfold TrackBranch
  cases st.bitmap_shm <;> simp

/-- The tests of lines 91-95 read the region bounds only. -/
theorem instrumented_congr (s t : State) (h1 : s.min_addr = t.min_addr)
    (h2 : s.max_addr = t.max_addr) (ins : Ins) : instrumented s ins = instrumented t ins := by
  simp [instrumented, valid_addr, h1, h2]

/-- Effect of `Trace` on one instruction: it keeps the region and appends one entry to
`branch_sources` exactly when the instruction passes the three tests. -/
theorem Trace_ins_effect (u : Nat) (st : State) (ins : Ins) :
    (Trace_ins u st ins).min_addr = st.min_addr ∧
    (Trace_ins u st ins).max_addr = st.max_addr ∧
    (Trace_ins u st ins).branch_sources.length =
      st.branch_sources.length + (if instrumented st ins = true then 1 else 0) := by
  unfold Trace_ins instrumented
  by_cases hv : valid_addr st ins.address = true
  · by_cases hb : ins.isBranch = true
    · by_cases hf : ins.hasFallThrough = true ∨ ins.isCall = true
      · have hf2 : (ins.hasFallThrough || ins.isCall) = true := by simpa using hf
        simp [hv, hb, hf, hf2]
      · have hf2 : (ins.hasFallThrough || ins.isCall) = false := by simpa using hf
        simp [hv, hb, hf, hf2]
    · simp [hv, hb]
  · simp [hv]

/-- Effect of `Trace` on a basic block. -/
theorem Trace_bbl_effect (bbl : List Ins) :
    ∀ acc : State × Nat,
    (bbl.foldl Trace_iter acc).1.min_addr = acc.1.min_addr ∧
    (bbl.foldl Trace_iter acc).1.max_addr = acc.1.max_addr ∧
    (bbl.foldl Trace_iter acc).1.branch_sources.length =
      acc.1.branch_sources.length + bbl.countP (instrumented acc.1) := by
  induction bbl with
  | nil => intro acc; simp
  | cons ins rest ih =>
    intro acc
    obtain ⟨h1, h2, h3⟩ := Trace_ins_effect acc.2 acc.1 ins
    obtain ⟨k1, k2, k3⟩ := ih (Trace_iter acc ins)
    have hc : instrumented (Trace_iter acc ins).1 = instrumented acc.1 :=
      funext (instrumented_congr _ _ h1 h2)
    rw [List.foldl_cons, k1, k2, k3, hc, List.countP_cons]
    refine ⟨h1, h2, ?_⟩
    show (Trace_ins acc.2 acc.1 ins).branch_sources.length + _ = _
    rw [h3]
    omega

/-- Effect of the loops of `Trace`, from any content of the storage of
`branch_jump`. -/
theorem Trace_loops_effect (t : List (List Ins)) :
    ∀ acc : State × Nat,
    (Trace_loops t acc).1.min_addr = acc.1.min_addr ∧
    (Trace_loops t acc).1.max_addr = acc.1.max_addr ∧
    (Trace_loops t acc).1.branch_sources.length =
      acc.1.branch_sources.length + (t.map (fun bbl => bbl.countP (instrumented acc.1))).sum := by
  induction t with
  | nil => intro acc; simp [Trace_loops]
  | cons bbl rest ih =>
    intro acc
    obtain ⟨h1, h2, h3⟩ := Trace_bbl_effect bbl acc
    obtain ⟨k1, k2, k3⟩ := ih (bbl.foldl Trace_iter acc)
    have hc : instrumented (bbl.foldl Trace_iter acc).1 = instrumented acc.1 :=
      funext (instrumented_congr _ _ h1 h2)
    have hstep : Trace_loops (bbl :: rest) acc = Trace_loops rest (bbl.foldl Trace_iter acc) :=
      rfl
    rw [hstep, k1, k2, k3, h1, h2, h3, hc, List.map_cons, List.sum_cons]
    refine ⟨rfl, rfl, ?_⟩
    omega

/-- Effect of `Trace`: it keeps the region and appends one entry per instruction that
passes the three tests. -/
theorem Trace_effect (u : Nat) (t : List (List Ins)) :
    ∀ st : State,
    (Trace u st t).min_addr = st.min_addr ∧
    (Trace u st t).max_addr = st.max_addr ∧
    (Trace u st t).branch_sources.length =
      st.branch_sources.length + (t.map (fun bbl => bbl.countP (instrumented st))).sum := by
  intro st
  exact Trace_loops_effect t (st, u)

/-- Over a run the region is fixed and `branch_sources` grows by the number
of instrumentations, whatever is executed. -/
theorem run_effect (evs : List Event) :
    ∀ st : State,
    (run st evs).min_addr = st.min_addr ∧
    (run st evs).max_addr = st.max_addr ∧
    (run st evs).branch_sources.length = st.branch_sources.length + instrumentations st evs := by
  induction evs with
  | nil => intro st; simp [run, instrumentations]
  | cons ev rest ih =>
    intro st
    have hstep : run st (ev :: rest) = run (step st ev) rest := rfl
    obtain ⟨k1, k2, k3⟩ := ih (step st ev)
    cases ev with
    | trace u t =>
      obtain ⟨h1, h2, h3⟩ := Trace_effect u t st
      have hi : instrumentations (step st (.trace u t)) rest = instrumentations st rest := by
        have hc : instrumented (step st (.trace u t)) = instrumented st :=
          funext (instrumented_congr _ _ h1 h2)
        clear k1 k2 k3 hstep ih
        induction rest with
        | nil => rfl
        | cons e r ihr => cases e <;> simp [instrumentations, hc, ihr]
      rw [hstep, k1, k2, k3, hi]
      refine ⟨h1, h2, ?_⟩
      show (Trace u st t).branch_sources.length + _ = _
      rw [h3]
      simp only [instrumentations]
      omega
    | exec a =>
      obtain ⟨h1, _, _, h4, h5, _⟩ := TrackBranch_frame st a
      have hi : instrumentations (step st (.exec a)) rest = instrumentations st rest := by
        have hc : instrumented (step st (.exec a)) = instrumented st :=
          funext (instrumented_congr _ _ h4 h5)
        clear k1 k2 k3 hstep ih
        induction rest with
        | nil => rfl
        | cons e r ihr => cases e <;> simp [instrumentations, hc, ihr]
      rw [hstep, k1, k2, k3, hi]
      refine ⟨h4, h5, ?_⟩
      show (TrackBranch st a).branch_sources.length + _ = _
      rw [h1]
      simp only [instrumentations]

/-- C4 as stated fails: the branch at 0x1010 is instrumented once and
executed three times; `TrackBranch` increments the coverage map three times
(edge 0x10 once, edge 0 twice), the record holds one entry and the report's
count is 1, not 3. -/
theorem report_count_is_not_executions :
    executions loop_run = 3 ∧
    active_map (run region_state loop_run) 0x10 = 1 ∧
    active_map (run region_state loop_run) 0 = 2 ∧
    (run region_state loop_run).branch_sources.length = 1 ∧
    (Fini (run region_state loop_run)).map Prod.fst = some 1 ∧
    (Fini (run region_state loop_run)).map Prod.fst ≠ some (executions loop_run) := by
  decide

/-- C4 amended: the count written in the report is the number of record
entries appended by `Trace`, one per instrumentation of a branch inside the
region that falls through or is a call; `TrackBranch` appends nothing, so
the executions of a run do not contribute to the count. -/
theorem report_count_is_instrumentations (st : State) (evs : List Event)
    (h0 : st.branch_sources = []) :
    (∀ (s : State) (a : Nat),
      (TrackBranch s a).branch_sources = s.branch_sources ∧
      (TrackBranch s a).branch_jumps_instr = s.branch_jumps_instr ∧
      (TrackBranch s a).branch_jumps = s.branch_jumps) ∧
    ∃ sig, Fini (run st evs) = some (instrumentations st evs, sig) := by
  refine ⟨fun s a => ⟨(TrackBranch_frame s a).1, (TrackBranch_frame s a).2.1,
    (TrackBranch_frame s a).2.2.1⟩, ?_⟩
  obtain ⟨sig, hsig⟩ := Fini_some (run st evs)
  refine ⟨sig, ?_⟩
  rw [hsig, (run_effect evs st).2.2, h0]
  simp

/-- C4 amended, on the run that executes one instrumented branch three
times. -/
theorem report_count_is_instrumentations_witness :
    instrumentations region_state loop_run = 1 ∧
    ∃ sig, Fini (run region_state loop_run) = some (instrumentations region_state loop_run, sig) :=
  ⟨by decide, (report_count_is_instrumentations region_state loop_run (by decide)).2⟩

/-! ## Signature -/

/-- The call of `std::accumulate` with `+` on strings is the concatenation in order. -/
theorem accumulate_eq_flatten (v : List (List Char)) : accumulate v = v.flatten := by
  have h : ∀ (w : List (List Char)) (acc : List Char),
      w.foldl (fun a s => a ++ s) acc = acc ++ w.flatten := by
    intro w
    induction w with
    | nil => intro acc; simp
    | cons x rest ih => intro acc; simp [ih]
  simpa [accumulate] using h v []

/-- Converting to `int` only looks at the low 32 bits of a `size_t`. -/
theorem to_int_mod (n : Nat) : to_int (n % ADDR_RANGE) = to_int n := by
  have h : n % ADDR_RANGE % U32_RANGE = n % U32_RANGE :=
    Nat.mod_mod_of_dvd n (by decide : U32_RANGE ∣ ADDR_RANGE)
  unfold to_int
  rw [h]

/-- C6: for every record, `Fini` returns the `MurmurHash2`, with seed
0x726f7373, of the 12 bytes of three 32-bit words: the `MurmurHash2` of the
bytes of all recorded sources (8 bytes each), of the concatenation of all
recorded mnemonics, and of the bytes of all recorded targets, in this order
and with the same seed.  Each `len` is the byte count of its buffer as the
`int` parameter receives it, which is the byte count itself below `2 ^ 31`;
all four hashes return. -/
theorem Fini_signature (st : State) :
    ∃ h1 h2 h3 sig,
      MurmurHash2 (vector_bytes 8 st.branch_sources)
        (to_int (vector_bytes 8 st.branch_sources).length) 0x726f7373 = some h1 ∧
      MurmurHash2 (string_bytes st.branch_jumps_instr.flatten)
        (to_int (string_bytes st.branch_jumps_instr.flatten).length) 0x726f7373 = some h2 ∧
      MurmurHash2 (vector_bytes 8 st.branch_jumps)
        (to_int (vector_bytes 8 st.branch_jumps).length) 0x726f7373 = some h3 ∧
      MurmurHash2 (le_bytes 4 h1 ++ le_bytes 4 h2 ++ le_bytes 4 h3) 12 0x726f7373 = some sig ∧
      Fini st = some (st.branch_sources.length, sig) ∧
      ∀ n : Nat, n < 2 ^ 31 → to_int n = (n : Int) := by
  obtain ⟨⟨h1, e1⟩, ⟨h2, e2⟩, ⟨h3, e3⟩⟩ := sub_hashes_some st
  obtain ⟨sig, esig⟩ := Fini_some st
  refine ⟨h1, h2, h3, sig, ?_, ?_, ?_, ?_, esig, ?_⟩
  · rw [length_vector_bytes, Nat.mul_comm, ← to_int_mod]
    exact e1
  · rw [length_string_bytes, ← accumulate_eq_flatten]
    exact e2
  · rw [length_vector_bytes, Nat.mul_comm, ← to_int_mod]
    exact e3
  · unfold Fini at esig
    simp only [e1, e2, e3] at esig
    have hb : vector_bytes 4 [h1, h2, h3] = le_bytes 4 h1 ++ le_bytes 4 h2 ++ le_bytes 4 h3 := by
      simp [vector_bytes]
    have hl : to_int ([h1, h2, h3].length * 4 % ADDR_RANGE) = 12 := by
      show to_int (3 * 4 % ADDR_RANGE) = 12
      decide
    rw [hb, hl] at esig
    cases hf : MurmurHash2 (le_bytes 4 h1 ++ le_bytes 4 h2 ++ le_bytes 4 h3) 12 SEED with
    | none => rw [hf] at esig; simp at esig
    | some f =>
      rw [hf] at esig
      simp at esig
      rw [← esig]
      exact hf
  · intro n hn
    rw [← to_int_mod]
    exact to_int_of_lt n hn

/-- C6 on the record of the two branches instrumented in the order 0x1010,
0x1020: the three sub-hashes over 16, 4 and 16 bytes, and the signature. -/
theorem Fini_signature_witness :
    MurmurHash2 (vector_bytes 8 record_ab.branch_sources) 16 0x726f7373 = some 4121670973 ∧
    MurmurHash2 (string_bytes record_ab.branch_jumps_instr.flatten) 4 0x726f7373
      = some 925728419 ∧
    MurmurHash2 (vector_bytes 8 record_ab.branch_jumps) 16 0x726f7373 = some 3213831030 ∧
    Fini record_ab = some (2, 1314385488) ∧
    ∃ h1 h2 h3 sig,
      MurmurHash2 (vector_bytes 8 record_ab.branch_sources)
        (to_int (vector_bytes 8 record_ab.branch_sources).length) 0x726f7373 = some h1 ∧
      MurmurHash2 (string_bytes record_ab.branch_jumps_instr.flatten)
        (to_int (string_bytes record_ab.branch_jumps_instr.flatten).length) 0x726f7373
          = some h2 ∧
      MurmurHash2 (vector_bytes 8 record_ab.branch_jumps)
        (to_int (vector_bytes 8 record_ab.branch_jumps).length) 0x726f7373 = some h3 ∧
      MurmurHash2 (le_bytes 4 h1 ++ le_bytes 4 h2 ++ le_bytes 4 h3) 12 0x726f7373 = some sig ∧
      Fini record_ab = some (record_ab.branch_sources.length, sig) ∧
      ∀ n : Nat, n < 2 ^ 31 → to_int n = (n : Int) :=
  ⟨by decide, by decide, by decide, by decide, Fini_signature record_ab⟩

/-- C7 as stated fails: on the empty record the signature `Fini` returns is
not the hash of the zero-length input. -/
theorem Fini_empty_is_not_empty_hash :
    State.init.branch_sources = [] ∧ State.init.branch_jumps_instr = [] ∧
    State.init.branch_jumps = [] ∧
    MurmurHash2 [] 0 0x726f7373 = some 1875735347 ∧
    (Fini State.init).map Prod.snd = some 1617193579 ∧
    (Fini State.init).map Prod.snd ≠ MurmurHash2 [] 0 0x726f7373 := by
  decide

/-- C7 amended: on an empty record each of the three sub-hashes is the hash
of the zero-length input under the seed, `MurmurHash2(empty, 0, 0x726f7373)`
= 1875735347, and `Fini` returns the count 0 with the `MurmurHash2` of the
12 bytes of these three words, 1617193579. -/
theorem Fini_empty (st : State) (h1 : st.branch_sources = [])
    (h2 : st.branch_jumps_instr = []) (h3 : st.branch_jumps = []) :
    branch_sources_hash st = MurmurHash2 [] 0 0x726f7373 ∧
    branch_jumps_instr_hash st = MurmurHash2 [] 0 0x726f7373 ∧
    branch_jumps_hash st = MurmurHash2 [] 0 0x726f7373 ∧
    MurmurHash2 [] 0 0x726f7373 = some 1875735347 ∧
    MurmurHash2 (le_bytes 4 1875735347 ++ le_bytes 4 1875735347 ++ le_bytes 4 1875735347)
      12 0x726f7373 = some 1617193579 ∧
    Fini st = some (0, 1617193579) := by
  have e1 : branch_sources_hash st = MurmurHash2 [] 0 0x726f7373 := by
    unfold branch_sources_hash
    rw [h1]
    rfl
  have e2 : branch_jumps_instr_hash st = MurmurHash2 [] 0 0x726f7373 := by
    unfold branch_jumps_instr_hash
    rw [h2]
    rfl
  have e3 : branch_jumps_hash st = MurmurHash2 [] 0 0x726f7373 := by
    unfold branch_jumps_hash
    rw [h3]
    rfl
  have e0 : MurmurHash2 [] 0 0x726f7373 = some 1875735347 := by decide
  refine ⟨e1, e2, e3, e0, by decide, ?_⟩
  unfold Fini
  rw [e1, e2, e3, e0, h1]
  decide

/-- C7 amended, on the state at program start. -/
theorem Fini_empty_witness : Fini State.init = some (0, 1617193579) :=
  (Fini_empty State.init rfl rfl rfl).2.2.2.2.2

/-- C9: two states holding the same ordered record report the same count and
the same signature, whatever their coverage maps and `last_id` are. -/
theorem Fini_deterministic (s t : State)
    (h1 : s.branch_sources = t.branch_sources)
    (h2 : s.branch_jumps_instr = t.branch_jumps_instr)
    (h3 : s.branch_jumps = t.branch_jumps) :
    ∃ sig, Fini s = some (s.branch_sources.length, sig) ∧
      Fini t = some (s.branch_sources.length, sig) := by
  obtain ⟨sig, hsig⟩ := Fini_some s
  refine ⟨sig, hsig, ?_⟩
  rw [← hsig]
  unfold Fini branch_sources_hash branch_jumps_instr_hash branch_jumps_hash
  rw [h1, h2, h3]

/-- C9 on two states with the same record and different coverage maps and
`last_id`. -/
theorem Fini_deterministic_witness :
    region_state.bitmap 0 ≠ region_state_touched.bitmap 0 ∧
    region_state.last_id ≠ region_state_touched.last_id ∧
    ∃ sig, Fini region_state = some (region_state.branch_sources.length, sig) ∧
      Fini region_state_touched = some (region_state.branch_sources.length, sig) :=
  ⟨by decide, by decide, Fini_deterministic region_state region_state_touched rfl rfl rfl⟩

/-! ## Target extraction -/

/-- The call of `find` returns `npos` when the character does not occur from `pos` on. -/
theorem str_find_none (s : List Char) (c : Char) (pos : Nat) (h : c ∉ s.drop pos) :
    str_find s c pos = none := by
  unfold str_find
  have hi : List.indexOf c (s.drop pos) = (s.drop pos).length := List.indexOf_eq_length.mpr h
  simp [hi]

/-- In `pre ++ tok`, with a blank at the end of `pre`, `find` from a position
inside `pre` stops inside `pre`. -/
theorem str_find_in_pre (p tok : List Char) (pos : Nat) (hpos : pos < (p ++ [' ']).length) :
    ∃ e, str_find ((p ++ [' ']) ++ tok) ' ' pos = some e ∧ pos ≤ e ∧ e < (p ++ [' ']).length := by
  have hdrop : ((p ++ [' ']) ++ tok).drop pos = (p ++ [' ']).drop pos ++ tok :=
    List.drop_append_of_le_length (Nat.le_of_lt hpos)
  have hmem : ' ' ∈ (p ++ [' ']).drop pos := by
    have hd : (p ++ [' ']).drop pos = p.drop pos ++ [' '] := by
      apply List.drop_append_of_le_length
      simp at hpos
      omega
    rw [hd]
    simp
  have hidx : List.indexOf ' ' ((p ++ [' ']).drop pos ++ tok) =
      List.indexOf ' ' ((p ++ [' ']).drop pos) := List.indexOf_append_of_mem hmem
  have hlt : List.indexOf ' ' ((p ++ [' ']).drop pos) < ((p ++ [' ']).drop pos).length :=
    List.indexOf_lt_length.mpr hmem
  refine ⟨pos + List.indexOf ' ' ((p ++ [' ']).drop pos), ?_, Nat.le_add_right _ _, ?_⟩
  · unfold str_find
    simp only [hdrop, hidx]
    rw [if_pos]
    rw [List.length_append]
    omega
  · rw [List.length_drop] at hlt
    omega

/-- The token loop stops with `start` just after the last blank. -/
theorem token_loop_start (pre tok : List Char)
    (hpre : pre = [] ∨ ∃ p, pre = p ++ [' ']) (htok : ' ' ∉ tok) :
    ∀ (fuel start : Nat) (instr : List Char), start ≤ pre.length → pre.length - start < fuel →
      (token_loop (pre ++ tok) fuel start (str_find (pre ++ tok) ' ' start) instr).1
        = pre.length := by
  intro fuel
  induction fuel with
  | zero => intro start instr _ h; omega
  | succ k ih =>
    intro start instr hle hfuel
    by_cases hs : start = pre.length
    · have hnone : str_find (pre ++ tok) ' ' start = none := by
        apply str_find_none
        rw [hs, List.drop_left]
        exact htok
      rw [hnone]
      simp [token_loop, hs]
    · have hlt : start < pre.length := by omega
      rcases hpre with h0 | ⟨p, hp⟩
      · rw [h0] at hlt
        simp at hlt
      · subst hp
        obtain ⟨e, he, hse, hel⟩ := str_find_in_pre p tok start hlt
        rw [he]
        simp only [token_loop]
        apply ih
        · omega
        · omega

/-- The function `split_tokens` finds the position after the last blank. -/
theorem split_tokens_start (pre tok : List Char)
    (hpre : pre = [] ∨ ∃ p, pre = p ++ [' ']) (htok : ' ' ∉ tok) :
    (split_tokens (pre ++ tok)).1 = pre.length := by
  unfold split_tokens
  apply token_loop_start pre tok hpre htok
  · omega
  · simp
    omega

/-- Characters are ordered by their code. -/
theorem char_le_iff (a b : Char) : a ≤ b ↔ a.toNat ≤ b.toNat := Iff.rfl

/-- The code of a hex digit is between those of `0` and `f`. -/
theorem is_hex_toNat (c : Char) (h : is_hex c = true) : 48 ≤ c.toNat ∧ c.toNat ≤ 102 := by
  unfold is_hex hex_digit at h
  split_ifs at h with h1 h2 h3
  · rw [char_le_iff, char_le_iff] at h1
    have : '0'.toNat = 48 := rfl
    have : '9'.toNat = 57 := rfl
    omega
  · rw [char_le_iff, char_le_iff] at h2
    have : 'a'.toNat = 97 := rfl
    have : 'f'.toNat = 102 := rfl
    omega
  · rw [char_le_iff, char_le_iff] at h3
    have : 'A'.toNat = 65 := rfl
    have : 'F'.toNat = 70 := rfl
    omega
  · simp at h

/-- The code of a white-space character is below that of `0`. -/
theorem is_space_toNat (c : Char) (h : is_space c = true) : c.toNat < 48 := by
  unfold is_space at h
  simp only [Bool.or_eq_true, decide_eq_true_eq] at h
  rcases h with ((((h | h) | h) | h) | h) | h
  · subst h; decide
  · subst h; decide
  · subst h; decide
  · subst h; decide
  · omega
  · omega

/-- A hex digit is neither white space nor a sign. -/
theorem is_hex_plain (c : Char) (h : is_hex c = true) :
    is_space c = false ∧ c ≠ '+' ∧ c ≠ '-' := by
  have hb := is_hex_toNat c h
  refine ⟨?_, ?_, ?_⟩
  · cases hsp : is_space c with
    | false => rfl
    | true => have := is_space_toNat c hsp; omega
  · intro hc; subst hc; revert hb; decide
  · intro hc; subst hc; revert hb; decide

/-- The scan of hex digits takes a run of digits up to the first character
that is not one. -/
theorem takeWhile_hex_run (ds rest : List Char) (hds : ∀ c ∈ ds, is_hex c = true)
    (hhead : ∀ c, rest.head? = some c → is_hex c = false) :
    (ds ++ rest).takeWhile is_hex = ds := by
  induction ds with
  | nil =>
    cases rest with
    | nil => rfl
    | cons c r => simp [List.takeWhile, hhead c rfl]
  | cons d ds1 ih =>
    have hd : is_hex d = true := hds d (List.mem_cons_self _ _)
    have ht := ih (fun c hc => hds c (List.mem_cons_of_mem _ hc))
    simp [List.takeWhile, hd, ht]

/-- Extraction from a field that starts with a character that is neither
white space, a sign nor `0`: the value of the leading run of hex digits, `0`
for an empty run, the largest value for a run that does not fit. -/
theorem hex_extract_cons (c : Char) (tl : List Char) (hsp : is_space c = false)
    (hplus : c ≠ '+') (hminus : c ≠ '-') (hzero : c ≠ '0') :
    hex_extract (c :: tl) =
      if (c :: tl).takeWhile is_hex = [] then some 0
      else if hex_value ((c :: tl).takeWhile is_hex) ≥ ADDR_RANGE then some (ADDR_RANGE - 1)
      else some (hex_value ((c :: tl).takeWhile is_hex)) := by
  have hdw : List.dropWhile is_space (c :: tl) = c :: tl := by
    simp [List.dropWhile, hsp]
  have hm : (match c :: tl with
      | '0' :: 'x' :: r => ((false, r) : Bool × List Char)
      | '0' :: 'X' :: r => (false, r)
      | '0' :: r => (true, r)
      | _ => (false, c :: tl)) = (false, c :: tl) := by
    split
    · rename_i heq; exact absurd (List.cons.inj heq).1 hzero
    · rename_i heq; exact absurd (List.cons.inj heq).1 hzero
    · rename_i heq; exact absurd (List.cons.inj heq).1 hzero
    · rfl
  unfold hex_extract
  simp only [hdw]
  have hne : ¬ (c :: tl = []) := by simp
  have hh1 : ¬ ((c :: tl).head? = some '-') := by simpa using hminus
  have hh2 : ¬ ((c :: tl).head? = some '-' ∨ (c :: tl).head? = some '+') := by
    simp [hminus, hplus]
  rw [if_neg hne, if_neg hh2, hm]
  by_cases he : (c :: tl).takeWhile is_hex = []
  · simp [he]
  · simp [he, hminus]

/-- Extraction from a field made of a run of hex digits `ds` followed by
`rest`: the value of `ds`, whatever follows it. -/
theorem hex_extract_run (ds rest : List Char)
    (hds : ∀ c ∈ ds, is_hex c = true) (hzero : ds.head? ≠ some '0')
    (hval : hex_value ds < ADDR_RANGE)
    (hhead : ∀ c, rest.head? = some c → is_hex c = false)
    (hnone : ds = [] → ∃ c, rest.head? = some c ∧ is_space c = false ∧ c ≠ '+' ∧ c ≠ '-') :
    hex_extract (ds ++ rest) = some (hex_value ds) := by
  have hrun := takeWhile_hex_run ds rest hds hhead
  have key : ∀ (c : Char) (tl : List Char), ds ++ rest = c :: tl → is_space c = false →
      c ≠ '+' → c ≠ '-' → c ≠ '0' → hex_extract (ds ++ rest) = some (hex_value ds) := by
    intro c tl heq hsp hp hm hz
    have h := hex_extract_cons c tl hsp hp hm hz
    rw [← heq, hrun] at h
    rw [h]
    by_cases hd : ds = []
    · simp [hd, hex_value]
    · have hnv : ¬ hex_value ds ≥ ADDR_RANGE := by omega
      rw [if_neg hd, if_neg hnv]
  cases ds with
  | nil =>
    obtain ⟨c, hc, hsp, hp, hm⟩ := hnone rfl
    cases rest with
    | nil => simp at hc
    | cons c1 r =>
      have hcc : c1 = c := by simpa using hc
      subst hcc
      have hz : c1 ≠ '0' := by
        intro hz0
        have hx := hhead c1 rfl
        rw [hz0] at hx
        exact absurd hx (by decide)
      exact key c1 r rfl hsp hp hm hz
  | cons d ds1 =>
    have hd : is_hex d = true := hds d (List.mem_cons_self _ _)
    obtain ⟨hsp, hp, hm⟩ := is_hex_plain d hd
    have hz : d ≠ '0' := by
      intro hz0
      apply hzero
      simp [hz0]
    exact key d (ds1 ++ rest) rfl hsp hp hm hz

/-- C10 as stated fails: the last token of `call qword ptr fs:[rax]`,
`fs:[rax]`, is not a base-16 integer, and target extraction yields 15 from
its leading `f`, the value the numeric operand of `call 0xf` yields; the
token `rax` yields 0, as the numeric operand `0x0` does.  The stored targets
of the indirect and of the direct call are equal. -/
theorem indirect_target_is_not_distinguished :
    (call_indirect.disassemble.drop (split_tokens call_indirect.disassemble).1
      = "fs:[rax]".toList) ∧
    is_hex_integer "fs:[rax]".toList = false ∧
    is_hex_integer "0xf".toList = true ∧
    branch_jump_of 0 call_indirect.disassemble = 15 ∧
    branch_jump_of 0 call_direct.disassemble = 15 ∧
    (Trace_ins 0 region_state call_indirect).branch_jumps
      = (Trace_ins 0 region_state call_direct).branch_jumps ∧
    is_hex_integer "rax".toList = false ∧
    branch_jump_of 0 "call rax".toList = branch_jump_of 0 "call 0x0".toList := by
  decide

/-- C10 amended: when the text after the last blank is a run `ds` of hex
digits (not starting with `0`, its value below `2 ^ 64`) followed by `rest`,
which starts with no hex digit, the extracted target is the value of `ds`,
whatever `rest` is: an operand that is not a base-16 integer gets the value
of its leading digits (0 when it has none), the value the numeric operand
`ds` gets.  There is no distinguished value for an unknown target. -/
theorem branch_jump_of_leading_digits (uninit : Nat) (pre ds rest : List Char)
    (hpre : pre = [] ∨ pre.getLast? = some ' ')
    (hds : ∀ c ∈ ds, is_hex c = true) (hzero : ds.head? ≠ some '0')
    (hval : hex_value ds < ADDR_RANGE)
    (hrest : ' ' ∉ rest)
    (hhead : ∀ c, rest.head? = some c → is_hex c = false)
    (hnone : ds = [] → ∃ c, rest.head? = some c ∧ is_space c = false ∧ c ≠ '+' ∧ c ≠ '-') :
    branch_jump_of uninit (pre ++ (ds ++ rest)) = hex_value ds := by
  have hpre1 : pre = [] ∨ ∃ p, pre = p ++ [' '] := by
    rcases hpre with h | h
    · exact Or.inl h
    · exact Or.inr (List.getLast?_eq_some_iff.mp h)
  have htok : ' ' ∉ ds ++ rest := by
    intro hmem
    rcases List.mem_append.mp hmem with h | h
    · have := is_hex_toNat ' ' (hds ' ' h)
      revert this
      decide
    · exact hrest h
  unfold branch_jump_of
  rw [split_tokens_start pre (ds ++ rest) hpre1 htok, List.drop_left,
    hex_extract_run ds rest hds hzero hval hhead hnone]
  rfl

/-- C10 amended, on `call qword ptr fs:[rax]`: the run is `f`, the rest
`s:[rax]`, the extracted target 15. -/
theorem branch_jump_of_leading_digits_witness :
    "call qword ptr ".toList ++ ("f".toList ++ "s:[rax]".toList) = call_indirect.disassemble ∧
    branch_jump_of 0 ("call qword ptr ".toList ++ ("f".toList ++ "s:[rax]".toList))
      = hex_value "f".toList ∧
    hex_value "f".toList = 15 :=
  ⟨by decide,
   branch_jump_of_leading_digits 0 "call qword ptr ".toList "f".toList "s:[rax]".toList
    (by decide) (by decide) (by decide) (by decide) (by decide) (by decide) (by decide),
   by decide⟩

/-! ## Region invariants -/

/-- One section keeps `min_addr <= max_addr`, whatever `sec_addr + sec_size`
wraps to. -/
theorem entry_point_sec_ordered (st : State) (sec : Section)
    (h : st.min_addr ≤ st.max_addr) :
    (entry_point_sec st sec).min_addr ≤ (entry_point_sec st sec).max_addr := by
  unfold entry_point_sec
  generalize add64 sec.address sec.size = high
  by_cases hq : sec.executable = true ∧ sec.name = ".text"
  · rw [if_pos hq]
    by_cases hz : sec.address = 0
    · simp [hz, h]
    · simp only [ne_eq, hz, not_false_eq_true, if_true]
      split_ifs <;> simp_all <;> omega
  · rw [if_neg hq]
    exact h

/-- The section loop keeps `min_addr <= max_addr`. -/
theorem entry_point_ordered (secs : List Section) :
    ∀ st : State, st.min_addr ≤ st.max_addr →
      (entry_point st secs).min_addr ≤ (entry_point st secs).max_addr := by
  induction secs with
  | nil => intro st h; exact h
  | cons sec rest ih =>
    intro st h
    have hstep : entry_point st (sec :: rest) = entry_point (entry_point_sec st sec) rest := rfl
    rw [hstep]
    exact ih _ (entry_point_sec_ordered st sec h)

/-- One section never lowers `max_addr`. -/
theorem entry_point_sec_max_mono (st : State) (sec : Section) :
    st.max_addr ≤ (entry_point_sec st sec).max_addr := by
  unfold entry_point_sec
  generalize add64 sec.address sec.size = high
  by_cases hq : sec.executable = true ∧ sec.name = ".text"
  · rw [if_pos hq]
    by_cases hz : sec.address = 0
    · simp [hz]
    · simp only [ne_eq, hz, not_false_eq_true, if_true]
      split_ifs <;> simp_all <;> omega
  · rw [if_neg hq]

/-- C11: starting from the empty region `(0, 0)`, after each processed
section (every prefix of every section list) `min_addr <= max_addr`, also
when a section's address + size wraps around the 64-bit width, as for the
section at 0xfffffffffffff000 of size 0x1010, which leaves the region
`[0xfffffffffffff000, 0xfffffffffffff000]`. -/
theorem entry_point_base_le_limit (secs : List Section) (n : Nat) :
    (entry_point State.init (secs.take n)).min_addr ≤
      (entry_point State.init (secs.take n)).max_addr ∧
    add64 wrapping_text_section.address wrapping_text_section.size = 0x10 ∧
    (entry_point State.init [wrapping_text_section]).min_addr = 0xfffffffffffff000 ∧
    (entry_point State.init [wrapping_text_section]).max_addr = 0xfffffffffffff000 := by
  refine ⟨entry_point_ordered (secs.take n) State.init (Nat.le_refl _), ?_, ?_, ?_⟩ <;> decide

/-- C12 (code defect, the one of C1): the region `[0x1000, 0x1100]` reached
after the section at 0x1000 is not empty; processing the section at 0x2000
raises `min_addr` from 0x1000 to 0x2000 (while `max_addr` grows from 0x1100
to 0x2100), so the address 0x1000, within the region before, is outside it
afterwards. -/
theorem entry_point_sec_raises_base :
    two_text_sections = [low_text_section, high_text_section] ∧
    (entry_point State.init [low_text_section]).min_addr = 0x1000 ∧
    (entry_point State.init [low_text_section]).max_addr = 0x1100 ∧
    (entry_point_sec (entry_point State.init [low_text_section]) high_text_section).min_addr
      = 0x2000 ∧
    (entry_point_sec (entry_point State.init [low_text_section]) high_text_section).max_addr
      = 0x2100 ∧
    valid_addr (entry_point State.init [low_text_section]) 0x1000 = true ∧
    valid_addr (entry_point_sec (entry_point State.init [low_text_section]) high_text_section)
      0x1000 = false := by
  decide

/-! ## Edge index and frame of the tracker -/

/-- The coverage map `TrackBranch` leaves behind: the active map with the
counter at `edge_index` incremented modulo 256. -/
theorem TrackBranch_active_map (st : State) (a : Nat) :
    active_map (TrackBranch st a) =
      Function.update (active_map st) (edge_index st a)
        ((active_map st (edge_index st a) + 1) % 256) := by
  unfold TrackBranch active_map edge_index
  cases st.bitmap_shm <;> rfl

/-- The value `TrackBranch` leaves in `last_id`. -/
theorem TrackBranch_last_id (st : State) (a : Nat) :
    (TrackBranch st a).last_id = sub64 a st.min_addr := by
  unfold TrackBranch
  cases st.bitmap_shm <;> rfl

/-- The edge index is below `MAP_SIZE`. -/
theorem edge_index_lt (st : State) (a : Nat) : edge_index st a < 65536 := by
  unfold edge_index
  exact Nat.mod_lt _ (by decide)

/-- C13: for every pair of values `branch_id`, `previous_branch_id` the index
`(branch_id XOR previous_branch_id) mod MAP_SIZE` is below 65536; it is the
index `TrackBranch` uses, so `TrackBranch` never touches a counter at an
index of 65536 or more. -/
theorem edge_index_in_bounds (branch_id previous_branch_id : Nat) :
    (branch_id ^^^ previous_branch_id) % MAP_SIZE < 65536 ∧
    (∀ (st : State) (a : Nat),
      edge_index st a = (sub64 a st.min_addr ^^^ st.last_id) % MAP_SIZE ∧
      edge_index st a < 65536 ∧
      ∀ i, 65536 ≤ i → active_map (TrackBranch st a) i = active_map st i) := by
  refine ⟨Nat.mod_lt _ (by decide), ?_⟩
  intro st a
  refine ⟨rfl, edge_index_lt st a, ?_⟩
  intro i hi
  have hne : i ≠ edge_index st a := by
    have := edge_index_lt st a
    omega
  rw [TrackBranch_active_map, Function.update_noteq hne]

/-- C17: for an admitted source address the subtraction `source - base` of
`TrackBranch` does not wrap: the branch id, which `TrackBranch` leaves in
`last_id`, is the difference of the two addresses as integers and lies
between 0 and `limit - base`. -/
theorem branch_id_no_wrap (st : State) (cur_addr : Nat)
    (hv : valid_addr st cur_addr = true) (hr : cur_addr < ADDR_RANGE) :
    ((sub64 cur_addr st.min_addr : Nat) : Int) = (cur_addr : Int) - (st.min_addr : Int) ∧
    (TrackBranch st cur_addr).last_id = sub64 cur_addr st.min_addr ∧
    0 ≤ sub64 cur_addr st.min_addr ∧
    sub64 cur_addr st.min_addr ≤ st.max_addr - st.min_addr := by
  obtain ⟨h1, h2⟩ := valid_addr_bounds st cur_addr hv
  have hsub := sub64_of_le cur_addr st.min_addr h1 hr
  refine ⟨?_, TrackBranch_last_id st cur_addr, Nat.zero_le _, ?_⟩
  · rw [hsub]
    omega
  · rw [hsub]
    omega

/-- C17 at the address 0x1010 of the region `[0x1000, 0x1100]`: the branch
id is 0x10. -/
theorem branch_id_no_wrap_witness :
    valid_addr sample_state 0x1010 = true ∧
    ((sub64 0x1010 sample_state.min_addr : Nat) : Int)
      = ((0x1010 : Nat) : Int) - (sample_state.min_addr : Int) ∧
    sub64 0x1010 sample_state.min_addr = 0x10 ∧
    sub64 0x1010 sample_state.min_addr ≤ sample_state.max_addr - sample_state.min_addr :=
  ⟨by decide, (branch_id_no_wrap sample_state 0x1010 (by decide) (by decide)).1, by decide,
    (branch_id_no_wrap sample_state 0x1010 (by decide) (by decide)).2.2.2⟩

/-- C18: `TrackBranch` changes one counter of the active map, the one at the
edge index, which becomes `(old + 1) mod 256`.  Every other counter of the
active map, the local map when a shared one is attached, the absence of a
shared map when none is attached, the region bounds, `sec_addr`, `sec_size`
and the three record vectors are unchanged. -/
theorem TrackBranch_frame_effect (st : State) (a : Nat) :
    active_map (TrackBranch st a) (edge_index st a)
      = (active_map st (edge_index st a) + 1) % 256 ∧
    (∀ i, i ≠ edge_index st a → active_map (TrackBranch st a) i = active_map st i) ∧
    (∀ shm, st.bitmap_shm = some shm →
      (TrackBranch st a).bitmap = st.bitmap ∧ (TrackBranch st a).bitmap_shm ≠ none) ∧
    (st.bitmap_shm = none → (TrackBranch st a).bitmap_shm = none) ∧
    (TrackBranch st a).min_addr = st.min_addr ∧
    (TrackBranch st a).max_addr = st.max_addr ∧
    (TrackBranch st a).sec_addr = st.sec_addr ∧
    (TrackBranch st a).sec_size = st.sec_size ∧
    (TrackBranch st a).branch_sources = st.branch_sources ∧
    (TrackBranch st a).branch_jumps_instr = st.branch_jumps_instr ∧
    (TrackBranch st a).branch_jumps = st.branch_jumps := by
  refine ⟨?_, ?_, ?_, ?_, ?_⟩
  · rw [TrackBranch_active_map, Function.update_same]
  · intro i hi
    rw [TrackBranch_active_map, Function.update_noteq hi]
  · intro shm hs
    unfold TrackBranch
    rw [hs]
    exact ⟨rfl, by simp⟩
  · intro hs
    unfold TrackBranch
    rw [hs]
  · unfold TrackBranch
    cases st.bitmap_shm <;> exact ⟨rfl, rfl, rfl, rfl, rfl, rfl, rfl⟩

/-- C18 on the state with a shared map attached: the local map is the
constant 7 before and after, the shared counter at edge 0x45 goes from 0x45
to 0x46 and the shared counter at 0x46 stays 0x46. -/
theorem TrackBranch_frame_effect_witness :
    edge_index region_state_touched 0x1010 = 0x45 ∧
    active_map region_state_touched 0x45 = 0x45 ∧
    active_map (TrackBranch region_state_touched 0x1010) 0x45 = 0x46 ∧
    active_map (TrackBranch region_state_touched 0x1010) 0x46 = 0x46 ∧
    (TrackBranch region_state_touched 0x1010).bitmap = region_state_touched.bitmap :=
  ⟨by decide, by decide, by decide, by decide,
    ((TrackBranch_frame_effect region_state_touched 0x1010).2.2.1 _ rfl).1⟩

/-- C19: the edge index is symmetric.  With `last_id` left by a branch at
`x`, a branch at `y` increments the counter at the same index as a branch at
`x` with `last_id` left by a branch at `y`; as a formula,
`(a XOR b) mod MAP_SIZE = (b XOR a) mod MAP_SIZE`. -/
theorem edge_index_symmetric (st : State) (x y : Nat) :
    edge_index (TrackBranch st x) y = edge_index (TrackBranch st y) x ∧
    edge_index (TrackBranch st x) y
      = (sub64 y st.min_addr ^^^ sub64 x st.min_addr) % MAP_SIZE ∧
    (∀ a b : Nat, (a ^^^ b) % MAP_SIZE = (b ^^^ a) % MAP_SIZE) := by
  have hx := TrackBranch_last_id st x
  have hy := TrackBranch_last_id st y
  have mx := (TrackBranch_frame st x).2.2.2.1
  have my := (TrackBranch_frame st y).2.2.2.1
  refine ⟨?_, ?_, ?_⟩
  · unfold edge_index
    rw [hx, hy, mx, my, Nat.xor_comm]
  · unfold edge_index
    rw [hx, mx]
  · intro a b
    rw [Nat.xor_comm]

/-! ## End-to-end scenario -/

/-- Frame of `Trace` on one instruction: the coverage maps, `last_id` and
`sec_addr` are not written. -/
theorem Trace_ins_frame (u : Nat) (st : State) (ins : Ins) :
    (Trace_ins u st ins).bitmap = st.bitmap ∧
    (Trace_ins u st ins).bitmap_shm = st.bitmap_shm ∧
    (Trace_ins u st ins).last_id = st.last_id ∧
    (Trace_ins u st ins).sec_addr = st.sec_addr := by
  unfold Trace_ins
  split_ifs <;> exact ⟨rfl, rfl, rfl, rfl⟩

/-- Frame of `Trace`: the coverage maps, `last_id` and `sec_addr` are not
written. -/
theorem Trace_frame (u : Nat) (t : List (List Ins)) :
    ∀ st : State,
    (Trace u st t).bitmap = st.bitmap ∧
    (Trace u st t).bitmap_shm = st.bitmap_shm ∧
    (Trace u st t).last_id = st.last_id ∧
    (Trace u st t).sec_addr = st.sec_addr := by
  have hbbl : ∀ (bbl : List Ins) (acc : State × Nat),
      (bbl.foldl Trace_iter acc).1.bitmap = acc.1.bitmap ∧
      (bbl.foldl Trace_iter acc).1.bitmap_shm = acc.1.bitmap_shm ∧
      (bbl.foldl Trace_iter acc).1.last_id = acc.1.last_id ∧
      (bbl.foldl Trace_iter acc).1.sec_addr = acc.1.sec_addr := by
    intro bbl
    induction bbl with
    | nil => intro acc; exact ⟨rfl, rfl, rfl, rfl⟩
    | cons ins rest ih =>
      intro acc
      obtain ⟨h1, h2, h3, h4⟩ := Trace_ins_frame acc.2 acc.1 ins
      obtain ⟨k1, k2, k3, k4⟩ := ih (Trace_iter acc ins)
      rw [List.foldl_cons, k1, k2, k3, k4]
      exact ⟨h1, h2, h3, h4⟩
  have hloops : ∀ (w : List (List Ins)) (acc : State × Nat),
      (Trace_loops w acc).1.bitmap = acc.1.bitmap ∧
      (Trace_loops w acc).1.bitmap_shm = acc.1.bitmap_shm ∧
      (Trace_loops w acc).1.last_id = acc.1.last_id ∧
      (Trace_loops w acc).1.sec_addr = acc.1.sec_addr := by
    intro w
    induction w with
    | nil => intro acc; exact ⟨rfl, rfl, rfl, rfl⟩
    | cons bbl rest ih =>
      intro acc
      obtain ⟨h1, h2, h3, h4⟩ := hbbl bbl acc
      obtain ⟨k1, k2, k3, k4⟩ := ih (bbl.foldl Trace_iter acc)
      have hstep : Trace_loops (bbl :: rest) acc = Trace_loops rest (bbl.foldl Trace_iter acc) :=
        rfl
      rw [hstep, k1, k2, k3, k4, h1, h2, h3, h4]
      exact ⟨rfl, rfl, rfl, rfl⟩
  intro st
  exact hloops t (st, u)

/-- The active map is not written by `Trace`. -/
theorem Trace_active_map (u : Nat) (t : List (List Ins)) (st : State) :
    active_map (Trace u st t) = active_map st := by
  obtain ⟨h1, h2, _, _⟩ := Trace_frame u t st
  unfold active_map
  rw [h1, h2]

/-- C14: with a region based at 0x1000 that contains the three branches, a
fresh tracker (`last_id = 0`, all-zero active map) and an empty record, the
scenario `A` (0x1000), `B` (0x1010), `C` (0x1020) ends with a report whose
count is 3 and with the counters at the edges 0x0000, 0x0010 and 0x0030
equal to 1 and every other counter equal to 0. -/
theorem abc_scenario (st : State) (hmin : st.min_addr = 0x1000)
    (hmax : 0x1020 ≤ st.max_addr) (hlast : st.last_id = 0)
    (hmap : ∀ i, active_map st i = 0) (hrec : st.branch_sources = []) :
    (∃ sig, Fini (run st abc_run) = some (3, sig)) ∧
    ∀ i, active_map (run st abc_run) i = if i = 0x0000 ∨ i = 0x0010 ∨ i = 0x0030 then 1 else 0 := by
  constructor
  · obtain ⟨sig, hsig⟩ := Fini_some (run st abc_run)
    refine ⟨sig, ?_⟩
    rw [hsig, (run_effect abc_run st).2.2, hrec]
    have hv : ∀ a, 0x1000 ≤ a → a ≤ 0x1020 → valid_addr st a = true := by
      intro a h1 h2
      unfold valid_addr
      rw [if_pos]
      rw [hmin]
      exact ⟨h1, by omega⟩
    have hA : instrumented st branch_A = true := by
      unfold instrumented
      rw [hv branch_A.address (by decide) (by decide)]
      rfl
    have hB : instrumented st branch_B = true := by
      unfold instrumented
      rw [hv branch_B.address (by decide) (by decide)]
      rfl
    have hC : instrumented st branch_C = true := by
      unfold instrumented
      rw [hv branch_C.address (by decide) (by decide)]
      rfl
    have hcount : instrumentations st abc_run = 3 := by
      simp [abc_run, instrumentations, List.countP_cons, hA, hB, hC]
    rw [hcount]
    rfl
  · intro i
    have hrun : run st abc_run =
        TrackBranch (TrackBranch (TrackBranch
          (Trace 0 st [[branch_A], [branch_B], [branch_C]]) 0x1000) 0x1010) 0x1020 := rfl
    generalize hs0 : Trace 0 st [[branch_A], [branch_B], [branch_C]] = s0 at hrun
    have hm0 : active_map s0 = active_map st := by
      rw [← hs0]; exact Trace_active_map 0 _ st
    have hl0 : s0.last_id = 0 := by
      rw [← hs0, (Trace_frame 0 _ st).2.2.1]; exact hlast
    have hb0 : s0.min_addr = 0x1000 := by
      rw [← hs0, (Trace_effect 0 _ st).1]; exact hmin
    have hb1 : (TrackBranch s0 0x1000).min_addr = 0x1000 := by
      rw [(TrackBranch_frame s0 0x1000).2.2.2.1]; exact hb0
    have hb2 : (TrackBranch (TrackBranch s0 0x1000) 0x1010).min_addr = 0x1000 := by
      rw [(TrackBranch_frame _ 0x1010).2.2.2.1]; exact hb1
    have he0 : edge_index s0 0x1000 = 0 := by
      unfold edge_index
      rw [hb0, hl0]
      decide
    have he1 : edge_index (TrackBranch s0 0x1000) 0x1010 = 0x10 := by
      unfold edge_index
      rw [hb1, TrackBranch_last_id, hb0]
      decide
    have he2 : edge_index (TrackBranch (TrackBranch s0 0x1000) 0x1010) 0x1020 = 0x30 := by
      unfold edge_index
      rw [hb2, TrackBranch_last_id, hb1]
      decide
    rw [hrun, TrackBranch_active_map, he2, TrackBranch_active_map, he1, TrackBranch_active_map,
      he0, hm0]
    by_cases h30 : i = 0x30
    · subst h30
      simp [Function.update, hmap]
    · by_cases h10 : i = 0x10
      · subst h10
        simp [Function.update, hmap]
      · by_cases h00 : i = 0
        · subst h00
          simp [Function.update, hmap]
        · simp [Function.update, hmap, h30, h10, h00]

/-- C14 on the state left by `entry_point` on an image whose `.text` section
is at 0x1000 with size 0x100. -/
theorem abc_scenario_witness :
    region_state.min_addr = 0x1000 ∧
    (∃ sig, Fini (run region_state abc_run) = some (3, sig)) ∧
    ∀ i, active_map (run region_state abc_run) i
      = if i = 0x0000 ∨ i = 0x0010 ∨ i = 0x0030 then 1 else 0 :=
  ⟨by decide, abc_scenario region_state (by decide) (by decide) (by decide)
    (fun _ => rfl) (by decide)⟩

/-! ## The hash against its reference definition -/

/-- Data shorter than a word has no complete word. -/
theorem short_data (l : List Nat) (h : l.length < 4) :
    complete_words l = [] ∧ remaining_bytes l = l := by
  match l, h with
  | [], _ => exact ⟨rfl, rfl⟩
  | [_], _ => exact ⟨rfl, rfl⟩
  | [_, _], _ => exact ⟨rfl, rfl⟩
  | [_, _, _], _ => exact ⟨rfl, rfl⟩
  | _ :: _ :: _ :: _ :: _, h => simp at h; omega

/-- The word loop of the code computes the fold of the reference word step
over the complete words of the first `n` bytes and stops on the remaining
`n mod 4` bytes. -/
theorem MurmurHash2_mix_ref (k : Nat) :
    ∀ (data : List Nat) (n : Nat) (h : Nat), data.length ≤ k → n ≤ data.length →
      ∃ d, MurmurHash2_mix 0x5bd1e995 24 data (n : Int) h =
          some (d, ((n % 4 : Nat) : Int),
            (complete_words (data.take n)).foldl ref_word_step h) ∧
        d.take (n % 4) = remaining_bytes (data.take n) ∧ n % 4 ≤ d.length := by
  induction k with
  | zero =>
    intro data n h hk hn
    have hd : data = [] := List.length_eq_zero.mp (Nat.le_zero.mp hk)
    subst hd
    have hn0 : n = 0 := by simpa using hn
    subst hn0
    refine ⟨[], ?_, rfl, Nat.le_refl _⟩
    unfold MurmurHash2_mix
    rfl
  | succ k ih =>
    intro data n h hk hn
    by_cases h4 : n < 4
    · have hnot : ¬ ((n : Int) ≥ 4) := by omega
      have hmod : n % 4 = n := Nat.mod_eq_of_lt h4
      have hlen : (data.take n).length < 4 := by
        rw [List.length_take]
        omega
      obtain ⟨hw, hr⟩ := short_data (data.take n) hlen
      refine ⟨data, ?_, ?_, ?_⟩
      · unfold MurmurHash2_mix
        rw [if_neg hnot, hw, hmod]
        rfl
      · rw [hr, hmod]
      · rw [hmod]
        exact hn
    · match data, hk, hn with
      | b0 :: b1 :: b2 :: b3 :: rest, hk, hn =>
        obtain ⟨n1, hn1⟩ : ∃ n1, n = n1 + 4 := ⟨n - 4, by omega⟩
        subst hn1
        have hge : ((n1 + 4 : Nat) : Int) ≥ 4 := by omega
        have hsub : ((n1 + 4 : Nat) : Int) - 4 = (n1 : Int) := by omega
        have hk1 : rest.length ≤ k := by simp at hk; omega
        have hn2 : n1 ≤ rest.length := by simp at hn; omega
        obtain ⟨d, hd, htake, hdl⟩ :=
          ih rest n1 (ref_word_step h (b0 + 2 ^ 8 * b1 + 2 ^ 16 * b2 + 2 ^ 24 * b3)) hk1 hn2
        have hmod : (n1 + 4) % 4 = n1 % 4 := Nat.add_mod_right n1 4
        refine ⟨d, ?_, ?_, ?_⟩
        · unfold MurmurHash2_mix
          rw [if_pos hge]
          simp only [hsub]
          have hstep : (mul32 h 0x5bd1e995 ^^^
              mul32 (mul32 (b0 + b1 * 2 ^ 8 + b2 * 2 ^ 16 + b3 * 2 ^ 24) 0x5bd1e995 ^^^
                mul32 (b0 + b1 * 2 ^ 8 + b2 * 2 ^ 16 + b3 * 2 ^ 24) 0x5bd1e995 >>> 24)
                0x5bd1e995) =
              ref_word_step h (b0 + 2 ^ 8 * b1 + 2 ^ 16 * b2 + 2 ^ 24 * b3) := by
            have hword : b0 + b1 * 2 ^ 8 + b2 * 2 ^ 16 + b3 * 2 ^ 24 =
                b0 + 2 ^ 8 * b1 + 2 ^ 16 * b2 + 2 ^ 24 * b3 := by ring
            rw [hword]
            rfl
          rw [hstep, hd, hmod]
          rfl
        · rw [hmod, htake]
          rfl
        · rw [hmod]
          exact hdl
      | [], _, hn => simp at hn; omega
      | [_], _, hn => simp at hn; omega
      | [_, _], _, hn => simp at hn; omega
      | [_, _, _], _, hn => simp at hn; omega

/-- Bits below `k` and bits from `k` on do not meet: their OR is their
XOR. -/
theorem or_shift_eq_xor (a b k : Nat) (ha : a < 2 ^ k) :
    a ||| (b <<< k) = a ^^^ (b <<< k) := by
  apply Nat.eq_of_testBit_eq
  intro i
  rw [Nat.testBit_or, Nat.testBit_xor, Nat.testBit_shiftLeft]
  by_cases hik : k ≤ i
  · have hfalse : a.testBit i = false :=
      Nat.testBit_lt_two_pow (lt_of_lt_of_le ha (Nat.pow_le_pow_right (by decide) hik))
    simp [hfalse]
  · simp [hik]

/-- The cascade of XORs of the `switch` is the XOR with the OR of the
shifted bytes. -/
theorem tail_cascade (h d0 d1 d2 : Nat) (h0 : d0 < 256) (h1 : d1 < 256) :
    (h ^^^ (d1 <<< 8)) ^^^ d0 = h ^^^ (d0 ||| d1 <<< 8) ∧
    ((h ^^^ (d2 <<< 16)) ^^^ (d1 <<< 8)) ^^^ d0 = h ^^^ (d0 ||| d1 <<< 8 ||| d2 <<< 16) := by
  have e1 : d0 ||| d1 <<< 8 = d0 ^^^ d1 <<< 8 := or_shift_eq_xor d0 d1 8 (by omega)
  have hlt : d0 ||| d1 <<< 8 < 2 ^ 16 := by
    apply Nat.or_lt_two_pow
    · omega
    · rw [Nat.shiftLeft_eq]
      omega
  have e2 : d0 ||| d1 <<< 8 ||| d2 <<< 16 = (d0 ||| d1 <<< 8) ^^^ d2 <<< 16 :=
    or_shift_eq_xor _ d2 16 hlt
  constructor
  · rw [e1, Nat.xor_assoc, Nat.xor_comm (d1 <<< 8) d0]
  · rw [e2, e1]
    ac_rfl

/-- The `switch` of the code computes the reference tail step on the
remaining bytes. -/
theorem MurmurHash2_tail_ref (d : List Nat) (r : Nat) (h : Nat) (hr : r < 4)
    (hlen : r ≤ d.length) (hb : ∀ b ∈ d.take r, b < 256) :
    MurmurHash2_tail 0x5bd1e995 d (r : Int) h = some (ref_tail (d.take r) h) := by
  unfold MurmurHash2_tail
  interval_cases r
  · simp [ref_tail]
  · match d, hlen, hb with
    | d0 :: rest, _, _ =>
      simp [ref_tail, mul32, U32_RANGE, REF_M]
    | [], hlen, _ => simp at hlen
  · match d, hlen, hb with
    | d0 :: d1 :: rest, _, hb =>
      have h0 : d0 < 256 := hb d0 (by simp)
      have h1 : d1 < 256 := hb d1 (by simp)
      have hc := (tail_cascade h d0 d1 0 h0 h1).1
      simp [ref_tail, mul32, U32_RANGE, REF_M, hc]
    | [], hlen, _ => simp at hlen
    | [_], hlen, _ => simp at hlen
  · match d, hlen, hb with
    | d0 :: d1 :: d2 :: rest, _, hb =>
      have h0 : d0 < 256 := hb d0 (by simp)
      have h1 : d1 < 256 := hb d1 (by simp)
      have hc := (tail_cascade h d0 d1 d2 h0 h1).2
      simp [ref_tail, mul32, U32_RANGE, REF_M, hc]
    | [], hlen, _ => simp at hlen
    | [_], hlen, _ => simp at hlen
    | [_, _], hlen, _ => simp at hlen

/-- The remaining bytes are bytes of the data. -/
theorem remaining_bytes_mem (k : Nat) :
    ∀ l : List Nat, l.length ≤ k → ∀ b ∈ remaining_bytes l, b ∈ l := by
  induction k with
  | zero =>
    intro l hl b hb
    have hnil : l = [] := List.length_eq_zero.mp (Nat.le_zero.mp hl)
    subst hnil
    exact hb
  | succ k ih =>
    intro l hl b hb
    match l, hl, hb with
    | [], _, hb => exact hb
    | [_], _, hb => exact hb
    | [_, _], _, hb => exact hb
    | [_, _, _], _, hb => exact hb
    | b0 :: b1 :: b2 :: b3 :: rest, hl, hb =>
      have hrest : b ∈ rest := ih rest (by simp at hl; omega) b hb
      simp [hrest]

/-- Refinement: for a buffer whose bytes are below 256 and a length `len` that does
not exceed it and fits `int`, `MurmurHash2(data, len, seed)` returns the
value of the reference definition on the first `len` bytes: `h = seed XOR len`,
the word step over the complete little-endian words in order, the tail step
over the remaining `len mod 4` bytes (no multiplication when there is none),
then the two shift-multiply rounds of the end. -/
theorem MurmurHash2_refines (data : List Nat) (len : Nat) (seed : Nat)
    (hlen : len ≤ data.length) (hint : len < 2 ^ 31) (hbytes : ∀ b ∈ data, b < 256) :
    MurmurHash2 data (len : Int) seed = some (MurmurHash2_ref (data.take len) seed) := by
  have hh0 : ((len : Int) % (U32_RANGE : Int)).toNat = len := by
    unfold U32_RANGE
    omega
  obtain ⟨d, hmix, htake, hdl⟩ :=
    MurmurHash2_mix_ref data.length data len (seed ^^^ len) (Nat.le_refl _) hlen
  have hb : ∀ b ∈ d.take (len % 4), b < 256 := by
    intro b hmem
    rw [htake] at hmem
    exact hbytes b (List.mem_of_mem_take
      (remaining_bytes_mem (data.take len).length (data.take len) (Nat.le_refl _) b hmem))
  have htail := MurmurHash2_tail_ref d (len % 4)
    ((complete_words (data.take len)).foldl ref_word_step (seed ^^^ len))
    (Nat.mod_lt _ (by decide)) hdl hb
  have hl : (data.take len).length = len := by
    rw [List.length_take]
    omega
  unfold MurmurHash2
  simp only [hh0, hmix, htail]
  unfold MurmurHash2_ref
  rw [hl, htake]
  rfl

/-- C15: for a buffer whose bytes are below 256 and a length `len` that does
not exceed it and fits `int`, `MurmurHash2(data, len, seed)` returns the
value of the reference definition on the first `len` bytes: `h = seed XOR len`,
the word step over the complete little-endian words in order, the tail step
over the remaining `len mod 4` bytes (no multiplication when there is none),
then the two shift-multiply rounds of the end. -/
theorem MurmurHash2_eq_ref (data : List Nat) (len : Nat) (seed : Nat)
    (hlen : len ≤ data.length) (hint : len < 2 ^ 31) (hbytes : ∀ b ∈ data, b < 256) :
    MurmurHash2 data (len : Int) seed = some (MurmurHash2_ref (data.take len) seed) :=
  MurmurHash2_refines data len seed hlen hint hbytes

/-- C15 on a 9-byte buffer hashed over its first 7 bytes: one complete
word and a tail of three bytes. -/
theorem MurmurHash2_eq_ref_witness :
    MurmurHash2 [1, 2, 3, 4, 5, 6, 7, 8, 9] ((7 : Nat) : Int) 0x726f7373
      = some (MurmurHash2_ref ([1, 2, 3, 4, 5, 6, 7, 8, 9].take 7) 0x726f7373) ∧
    MurmurHash2_ref [1, 2, 3, 4, 5, 6, 7] 0x726f7373 = 4222769263 :=
  ⟨MurmurHash2_eq_ref [1, 2, 3, 4, 5, 6, 7, 8, 9] 7 0x726f7373 (by decide) (by decide)
    (by decide), by decide⟩

/-! ## Every step of the hash of one word is one-to-one -/

/-- Multiplying by `m` modulo `2 ^ 32` is undone by multiplying by
0xe59b19bd, the inverse of `m`. -/
theorem mul_m_inverse (a : Nat) (ha : a < 2 ^ 32) :
    ((a * REF_M) % 2 ^ 32 * 0xe59b19bd) % 2 ^ 32 = a := by
  have hinv : (REF_M * 0xe59b19bd) % 2 ^ 32 = 1 := by decide
  calc ((a * REF_M) % 2 ^ 32 * 0xe59b19bd) % 2 ^ 32
      = (a * REF_M * 0xe59b19bd) % 2 ^ 32 := by
        rw [Nat.mul_mod ((a * REF_M) % 2 ^ 32), Nat.mod_mod, ← Nat.mul_mod]
    _ = (a * (REF_M * 0xe59b19bd)) % 2 ^ 32 := by rw [Nat.mul_assoc]
    _ = ((a % 2 ^ 32) * ((REF_M * 0xe59b19bd) % 2 ^ 32)) % 2 ^ 32 := Nat.mul_mod _ _ _
    _ = a := by rw [hinv, Nat.mul_one, Nat.mod_mod, Nat.mod_eq_of_lt ha]

/-- Multiplying by `m` modulo `2 ^ 32` is one-to-one on 32-bit values. -/
theorem mul_m_injective (a b : Nat) (ha : a < 2 ^ 32) (hb : b < 2 ^ 32)
    (h : (a * REF_M) % 2 ^ 32 = (b * REF_M) % 2 ^ 32) : a = b := by
  rw [← mul_m_inverse a ha, ← mul_m_inverse b hb, h]

/-- The step `x XOR (x >> s)` with `s > 0` is one-to-one. -/
theorem xor_shift_injective (s : Nat) (hs : 0 < s) (x y : Nat)
    (h : x ^^^ (x >>> s) = y ^^^ (y >>> s)) : x = y := by
  have hx : x < 2 ^ (x + y) :=
    lt_of_lt_of_le (Nat.lt_two_pow x) (Nat.pow_le_pow_right (by decide) (Nat.le_add_right _ _))
  have hy : y < 2 ^ (x + y) :=
    lt_of_lt_of_le (Nat.lt_two_pow y) (Nat.pow_le_pow_right (by decide) (Nat.le_add_left _ _))
  have key : ∀ j i, x + y ≤ i + j → x.testBit i = y.testBit i := by
    intro j
    induction j with
    | zero =>
      intro i hi
      have hi0 : x + y ≤ i := by omega
      rw [Nat.testBit_lt_two_pow (lt_of_lt_of_le hx (Nat.pow_le_pow_right (by decide) hi0)),
        Nat.testBit_lt_two_pow (lt_of_lt_of_le hy (Nat.pow_le_pow_right (by decide) hi0))]
    | succ j ih =>
      intro i hi
      have hup : x.testBit (s + i) = y.testBit (s + i) := ih (s + i) (by omega)
      have hbit : (x ^^^ (x >>> s)).testBit i = (y ^^^ (y >>> s)).testBit i := by rw [h]
      rw [Nat.testBit_xor, Nat.testBit_xor, Nat.testBit_shiftRight, Nat.testBit_shiftRight,
        hup] at hbit
      revert hbit
      cases x.testBit i <;> cases y.testBit i <;> cases y.testBit (s + i) <;> simp
  apply Nat.eq_of_testBit_eq
  intro i
  exact key (x + y) i (Nat.le_add_left _ _)

/-- The step `x XOR (x >> s)` keeps 32-bit values 32-bit. -/
theorem xor_shift_lt (s x : Nat) (hx : x < 2 ^ 32) : x ^^^ (x >>> s) < 2 ^ 32 := by
  apply Nat.xor_lt_two_pow hx
  rw [Nat.shiftRight_eq_div_pow]
  exact lt_of_le_of_lt (Nat.div_le_self _ _) hx

/-- The word step is one-to-one in the word, for 32-bit words. -/
theorem ref_word_step_injective_word (h k1 k2 : Nat) (h1 : k1 < 2 ^ 32) (h2 : k2 < 2 ^ 32)
    (heq : ref_word_step h k1 = ref_word_step h k2) : k1 = k2 := by
  unfold ref_word_step at heq
  have e1 := Nat.xor_right_injective heq
  have hm : ∀ k, (k * REF_M) % 2 ^ 32 < 2 ^ 32 := fun k => Nat.mod_lt _ (by decide)
  have e2 := mul_m_injective _ _ (xor_shift_lt 24 _ (hm k1)) (xor_shift_lt 24 _ (hm k2)) e1
  have e3 := xor_shift_injective 24 (by decide) _ _ e2
  exact mul_m_injective k1 k2 h1 h2 e3

/-- The word step is one-to-one in the running hash, for 32-bit hashes. -/
theorem ref_word_step_injective_hash (k h1 h2 : Nat) (hh1 : h1 < 2 ^ 32) (hh2 : h2 < 2 ^ 32)
    (heq : ref_word_step h1 k = ref_word_step h2 k) : h1 = h2 := by
  unfold ref_word_step at heq
  exact mul_m_injective h1 h2 hh1 hh2 (Nat.xor_left_injective heq)

/-- The word step yields a 32-bit value. -/
theorem ref_word_step_lt (h k : Nat) : ref_word_step h k < 2 ^ 32 := by
  unfold ref_word_step
  apply Nat.xor_lt_two_pow <;> exact Nat.mod_lt _ (by decide)

/-- The end of the hash is one-to-one on 32-bit values. -/
theorem ref_final_injective (h1 h2 : Nat) (hh1 : h1 < 2 ^ 32) (hh2 : h2 < 2 ^ 32)
    (heq : ref_final h1 = ref_final h2) : h1 = h2 := by
  unfold ref_final at heq
  have e1 := xor_shift_injective 15 (by decide) _ _ heq
  have e2 := mul_m_injective _ _ (xor_shift_lt 13 _ hh1) (xor_shift_lt 13 _ hh2) e1
  exact xor_shift_injective 13 (by decide) _ _ e2

/-- The four bytes of a 32-bit value form the word with that value. -/
theorem word_of_le_bytes (a : Nat) (ha : a < 2 ^ 32) :
    a % 256 + 2 ^ 8 * (a / 256 % 256) + 2 ^ 16 * (a / 256 / 256 % 256)
      + 2 ^ 24 * (a / 256 / 256 / 256 % 256) = a := by
  omega

/-- The bytes of a vector of 32-bit words, written out for three words. -/
theorem vector_bytes_three (a b c : Nat) :
    vector_bytes 4 [a, b, c] =
      [a % 256, a / 256 % 256, a / 256 / 256 % 256, a / 256 / 256 / 256 % 256,
       b % 256, b / 256 % 256, b / 256 / 256 % 256, b / 256 / 256 / 256 % 256,
       c % 256, c / 256 % 256, c / 256 / 256 % 256, c / 256 / 256 / 256 % 256] := by
  simp [vector_bytes, le_bytes]

/-- The reference definition on twelve bytes: three word steps, no tail. -/
theorem MurmurHash2_ref_three_words (x0 x1 x2 x3 x4 x5 x6 x7 x8 x9 x10 x11 seed : Nat) :
    MurmurHash2_ref (List.take 12 [x0, x1, x2, x3, x4, x5, x6, x7, x8, x9, x10, x11]) seed =
      ref_final (ref_word_step (ref_word_step (ref_word_step (seed ^^^ 12)
        (x0 + 2 ^ 8 * x1 + 2 ^ 16 * x2 + 2 ^ 24 * x3))
        (x4 + 2 ^ 8 * x5 + 2 ^ 16 * x6 + 2 ^ 24 * x7))
        (x8 + 2 ^ 8 * x9 + 2 ^ 16 * x10 + 2 ^ 24 * x11)) := by
  simp only [MurmurHash2_ref, List.take, complete_words, remaining_bytes, List.foldl, ref_tail,
    List.length_cons, List.length_nil]

/-- The storage of a vector of three 32-bit words holds bytes. -/
theorem vector_bytes_three_lt (a b c : Nat) : ∀ x ∈ vector_bytes 4 [a, b, c], x < 256 := by
  intro x hx
  rw [vector_bytes_three] at hx
  simp only [List.mem_cons, List.mem_singleton, List.not_mem_nil, or_false] at hx
  rcases hx with h | h | h | h | h | h | h | h | h | h | h | h <;> omega

/-- The final hash of `Fini` is the reference hash of the twelve bytes. -/
theorem final_hash_ref (a b c : Nat) :
    MurmurHash2 (vector_bytes 4 [a, b, c]) 12 0x726f7373 =
      some (MurmurHash2_ref (List.take 12 (vector_bytes 4 [a, b, c])) 0x726f7373) := by
  have hlen : 12 ≤ (vector_bytes 4 [a, b, c]).length := by
    rw [length_vector_bytes]
    simp
  exact MurmurHash2_refines (vector_bytes 4 [a, b, c]) 12 0x726f7373 hlen (by decide)
    (vector_bytes_three_lt a b c)

/-- The final hash of `Fini` as a formula: three word steps from
`seed XOR 12`, then the end. -/
theorem final_hash_formula (a b c : Nat) (ha : a < 2 ^ 32) (hb : b < 2 ^ 32)
    (hc : c < 2 ^ 32) :
    MurmurHash2 (vector_bytes 4 [a, b, c]) 12 0x726f7373 =
      some (ref_final (ref_word_step (ref_word_step (ref_word_step (0x726f7373 ^^^ 12) a) b) c))
      := by
  rw [final_hash_ref, vector_bytes_three, MurmurHash2_ref_three_words, word_of_le_bytes a ha,
    word_of_le_bytes b hb, word_of_le_bytes c hc]

/-- C20: two triples of 32-bit sub-hashes that differ in exactly one of the
three components get different final hashes from `MurmurHash2` over their 12
bytes with seed 0x726f7373 (both hashes are computed). -/
theorem final_hash_separates_one_component (a b c a1 b1 c1 : Nat)
    (ha : a < 2 ^ 32) (hb : b < 2 ^ 32) (hc : c < 2 ^ 32)
    (ha1 : a1 < 2 ^ 32) (hb1 : b1 < 2 ^ 32) (hc1 : c1 < 2 ^ 32)
    (hdiff : (a ≠ a1 ∧ b = b1 ∧ c = c1) ∨ (a = a1 ∧ b ≠ b1 ∧ c = c1) ∨
      (a = a1 ∧ b = b1 ∧ c ≠ c1)) :
    ∃ s s1, MurmurHash2 (vector_bytes 4 [a, b, c]) 12 0x726f7373 = some s ∧
      MurmurHash2 (vector_bytes 4 [a1, b1, c1]) 12 0x726f7373 = some s1 ∧ s ≠ s1 := by
  refine ⟨_, _, final_hash_formula a b c ha hb hc, final_hash_formula a1 b1 c1 ha1 hb1 hc1, ?_⟩
  intro heq
  have e3 := ref_final_injective _ _ (ref_word_step_lt _ _) (ref_word_step_lt _ _) heq
  rcases hdiff with ⟨hne, hbb, hcc⟩ | ⟨haa, hne, hcc⟩ | ⟨haa, hbb, hne⟩
  · subst hbb hcc
    have e2 := ref_word_step_injective_hash c _ _ (ref_word_step_lt _ _) (ref_word_step_lt _ _) e3
    have e1 := ref_word_step_injective_hash b _ _ (ref_word_step_lt _ _) (ref_word_step_lt _ _) e2
    exact hne (ref_word_step_injective_word _ a a1 ha ha1 e1)
  · subst haa hcc
    have e2 := ref_word_step_injective_hash c _ _ (ref_word_step_lt _ _) (ref_word_step_lt _ _) e3
    exact hne (ref_word_step_injective_word _ b b1 hb hb1 e2)
  · subst haa hbb
    exact hne (ref_word_step_injective_word _ c c1 hc hc1 e3)

/-- C20 on the triples `(1, 2, 3)` and `(1, 7, 3)`, which differ in the
second component: both final hashes are computed and they are different. -/
theorem final_hash_separates_one_component_witness :
    ∃ s s1, MurmurHash2 (vector_bytes 4 [1, 2, 3]) 12 0x726f7373 = some s ∧
      MurmurHash2 (vector_bytes 4 [1, 7, 3]) 12 0x726f7373 = some s1 ∧ s ≠ s1 :=
  final_hash_separates_one_component 1 2 3 1 7 3 (by decide) (by decide) (by decide)
    (by decide) (by decide) (by decide) (by decide)

/-! ## A collision of signatures -/

/-- C16: signature collisions exist.  In the region `[0x400000, 0x600000]`
the record of the branch `jz 0x415cd5` at 0x415cb5 and the record of the
branch `jz 0x41e3e6` at 0x41e3c6 are different (their one event differs in
source and target, the sub-hashes of sources and targets differ), and `Fini`
returns the same signature, 185358674, for both. -/
theorem signature_collision :
    events record_first = [(18446744073709462347, "jz".toList, 18446744073709462315)] ∧
    events record_second = [(18446744073709427770, "jz".toList, 18446744073709427738)] ∧
    events record_first ≠ events record_second ∧
    branch_sources_hash record_first = some 2891633648 ∧
    branch_sources_hash record_second = some 1642815145 ∧
    branch_jumps_hash record_first = some 3736090338 ∧
    branch_jumps_hash record_second = some 4122625733 ∧
    Fini record_first = some (1, 185358674) ∧
    Fini record_second = some (1, 185358674) ∧
    (Fini record_first).map Prod.snd = (Fini record_second).map Prod.snd := by
  decide

/-! ## The storage of `branch_jump` across iterations -/

/-- When the extraction reads nothing, the stored target comes from what the
storage of `branch_jump` held: the value of the previous iteration (15 after
`call 0xf`), or the content at entry (7 here) in the first iteration. -/
theorem Trace_stale_branch_jump :
    (Trace 7 region_state [[call_direct, call_blank]]).branch_jumps
      = [sub64 0x1000 15, sub64 0x1000 15] ∧
    (Trace 7 region_state [[call_blank]]).branch_jumps = [sub64 0x1000 7] := by
  decide

/-! ## How far the sub-hashes are sensitive to the order -/

end BOA
